import Mathlib

/-!
# Verification of the wallet-tracker P&L engine

Shallow embedding of `src/services/pnlCalculator.ts` (class `PnLCalculator`)
and of the cost-basis-method input validation in `src/agent.ts` / `src/index.ts`.

Modelling conventions:
* JavaScript numbers are embedded as exact rationals (`Rat`); the engine's
  arithmetic on the inputs exercised here is plain field arithmetic.
* JavaScript `Map` objects (which preserve insertion order and are only read
  through `get` / `set` / ordered iteration) are embedded as association
  lists with `alGet` / `alSet`, where `alSet` replaces in place and appends
  fresh keys at the end, exactly like `Map.prototype.set`.
* `Array.prototype.sort` is stable (ES2019); it is embedded as
  `List.insertionSort`, which is stable for the reflexive total comparators
  used by the source (`(a, b) => a.timestamp - b.timestamp` and its reverse).
* In `removePosition` the source mutates the *objects* shared between the
  `positions` array and the array returned by `orderPositions`.  For the
  `fifo` / `lifo` / `default` branches `orderPositions` returns a copied
  array holding the *same* objects, so the decrements are visible through
  `positions`; for the `avg` branch it returns fresh objects
  (`positions.map((p) => ({ ...p, price_usd: avgPrice }))`), so the
  decrements are *not* visible through `positions`.  Object identity is
  modelled by labelling each lot with its index in the stored array
  (`List.enum`) before ordering, and writing the consumed amounts back
  through those labels for the aliased branches only.
* `metadata.last_updated = Date.now()` reads the wall clock and is omitted
  from the embedding; the other `metadata` fields are kept.
-/

namespace WalletTracker

/-- Transaction kind (`Transaction.type` in `src/types`): `buy` /
`transfer_in` are acquisitions, `sell` / `transfer_out` are disposals. -/
inductive TxType where
  | buy
  | sell
  | transfer_in
  | transfer_out
deriving DecidableEq, Repr

/-- One ledger event, mirroring the `Transaction` record consumed by
`PnLCalculator.calculate`. -/
structure Transaction where
  tx_hash : String
  chain : String
  timestamp : Int
  type : TxType
  token_symbol : String
  token_address : String
  quantity : Rat
  price_usd : Rat
  total_value_usd : Rat
  realized_pnl_usd : Option Rat := none
deriving DecidableEq, Repr

instance : Inhabited Transaction :=
  ⟨{ tx_hash := "", chain := "", timestamp := 0, type := TxType.buy,
     token_symbol := "", token_address := "", quantity := 0, price_usd := 0,
     total_value_usd := 0 }⟩

/-- An open lot (`Position` in the source): a slice of acquired quantity. -/
structure Position where
  quantity : Rat
  price_usd : Rat
  timestamp : Int
  tx_hash : String
deriving DecidableEq, Repr

/-- Per-token aggregate (`TokenPnL` in the source). -/
structure TokenPnL where
  token_symbol : String
  token_address : String
  chain : String
  quantity_held : Rat
  average_buy_price_usd : Rat
  current_price_usd : Rat
  realized_pnl_usd : Rat
  unrealized_pnl_usd : Rat
  total_pnl_usd : Rat
  pnl_percentage : Rat
deriving DecidableEq, Repr

/-- Per-chain aggregate (`ChainPnL` in the source). -/
structure ChainPnL where
  chain : String
  realized_pnl_usd : Rat
  unrealized_pnl_usd : Rat
  total_pnl_usd : Rat
  pnl_percentage : Rat
deriving DecidableEq, Repr

/-- Portfolio summary (`PnLSummary` in the source). -/
structure PnLSummary where
  total_realized_pnl_usd : Rat
  total_unrealized_pnl_usd : Rat
  total_pnl_usd : Rat
  total_pnl_percentage : Rat
  initial_investment_usd : Rat
  current_value_usd : Rat
deriving DecidableEq, Repr

/-- Result of one `calculate` run (`PnLResult` in the source;
`metadata.last_updated` omitted, see module comment). -/
structure PnLResult where
  summary : PnLSummary
  by_chain : List ChainPnL
  by_token : List TokenPnL
  transactions : List Transaction
  chains_queried : List String
  data_sources : List String
deriving DecidableEq, Repr

/-- Ordered association list read, mirroring `Map.prototype.get`. -/
def alGet {α : Type} : List (String × α) → String → Option α
  | [], _ => none
  | (k', v) :: rest, k => if k' = k then some v else alGet rest k

/-- Ordered association list write, mirroring `Map.prototype.set`:
replaces an existing binding in place, appends a fresh key at the end. -/
def alSet {α : Type} : List (String × α) → String → α → List (String × α)
  | [], k, v => [(k, v)]
  | (k', v') :: rest, k, v =>
      if k' = k then (k, v) :: rest else (k', v') :: alSet rest k v

/-- `String.prototype.toLowerCase`, embedded as a per-character lowering
(the two agree on the ASCII strings the engine lowercases). -/
def strToLower (s : String) : String := String.mk (s.data.map Char.toLower)

/-- `${chain}:${symbol}:${address}`.toLowerCase()` (source `getTokenKey`). -/
def getTokenKey (chain symbol address : String) : String :=
  strToLower (chain ++ ":" ++ symbol ++ ":" ++ address)

/-- `positions.reduce((sum, p) => sum + p.quantity, 0)`. -/
def sumQty (lots : List Position) : Rat :=
  lots.foldl (fun s p => s + p.quantity) 0

/-- `positions.reduce((sum, p) => sum + p.quantity * p.price_usd, 0)`. -/
def sumValue (lots : List Position) : Rat :=
  lots.foldl (fun s p => s + p.quantity * p.price_usd) 0

/-- The consumption loop of `removePosition` (source lines 113-120) over
index-labelled lots: returns the accumulated cost basis together with the
list of `(label, quantity consumed, unit cost)` selections, in consumption
order.  The loop body only runs while `remainingQuantity > 0`. -/
def consume : List (Nat × Position) → Rat → Rat × List (Nat × Rat × Rat)
  | [], _ => (0, [])
  | (i, p) :: rest, rem =>
      if 0 < rem then
        let take := min p.quantity rem
        let r := consume rest (rem - take)
        (take * p.price_usd + r.1, (i, take, p.price_usd) :: r.2)
      else (0, [])

/-- Amount consumed from the lot labelled `i` (0 when `i` was not touched). -/
def lookupAmt (sel : List (Nat × Rat × Rat)) (i : Nat) : Rat :=
  ((sel.find? (fun s => s.1 == i)).map (fun s => s.2.1)).getD 0

/-- `orderPositions` (source lines 139-157): `fifo` and `lifo` return a
stably sorted copy of the array, `avg` returns fresh objects sharing one
pooled average price, and the `default` branch returns the array unchanged.
The pooled `avgPrice = totalValue / totalQuantity` division is unguarded in
the source (line 152): rational division renders the `0/0` of a non-empty
ledger whose lots sum to zero quantity as `0`, where JavaScript yields
`NaN`; `orderPositionsJS` below models that error path faithfully, and the
theorems that use this rational branch stay away from it. -/
def orderPositions (method : String) (positions : List Position) :
    List Position :=
  if method = "fifo" then
    positions.insertionSort (fun a b => a.timestamp ≤ b.timestamp)
  else if method = "lifo" then
    positions.insertionSort (fun a b => b.timestamp ≤ a.timestamp)
  else if method = "avg" then
    let totalQuantity := sumQty positions
    let totalValue := sumValue positions
    let avgPrice := totalValue / totalQuantity
    positions.map (fun p => { p with price_usd := avgPrice })
  else positions

/-- Outcome of `removePosition` on one key: the consumed cost basis, the
realized P&L written onto the transaction, the new stored lot list, and the
selections made by the consumption loop. -/
structure DisposeResult where
  costBasis : Rat
  realizedPnL : Rat
  newLots : List Position
  selections : List (Nat × Rat × Rat)
deriving Repr

/-- `removePosition` (source lines 105-134) on the lot list of one key.
Lots are labelled with their index in the stored array to model object
identity; see the module comment on aliasing.  For `fifo` / `lifo` /
`default` the consumed amounts are written back through the labels; for
`avg` the loop mutates fresh copies, so the stored lots keep their
quantities.  In every branch the stored array is then filtered by
`p.quantity > 0`.  The `avg` branch inherits the unguarded pooled-price
division noted at `orderPositions`: its non-finite (`NaN`) error path,
rendered here as rational `0/0 = 0`, is modelled faithfully by
`removePositionJS`. -/
def removePosition (method : String) (lots : List Position)
    (txQty txPrice : Rat) : DisposeResult :=
  let indexed := lots.enum
  let ordered : List (Nat × Position) :=
    if method = "fifo" then
      indexed.insertionSort (fun a b => a.2.timestamp ≤ b.2.timestamp)
    else if method = "lifo" then
      indexed.insertionSort (fun a b => b.2.timestamp ≤ a.2.timestamp)
    else if method = "avg" then
      let avgPrice := sumValue lots / sumQty lots
      indexed.map (fun ip => (ip.1, { ip.2 with price_usd := avgPrice }))
    else indexed
  let c := consume ordered txQty
  let updated :=
    if method = "avg" then lots
    else indexed.map
      (fun ip => { ip.2 with quantity := ip.2.quantity - lookupAmt c.2 ip.1 })
  { costBasis := c.1,
    realizedPnL := txQty * txPrice - c.1,
    newLots := updated.filter (fun p => 0 < p.quantity),
    selections := c.2 }

/-- Engine state: the two per-calculation maps of `PnLCalculator`. -/
structure CalcState where
  positions : List (String × List Position)
  tokenPnL : List (String × TokenPnL)
deriving Repr

def initState : CalcState := { positions := [], tokenPnL := [] }

/-- The stored lot list of a key (`this.positions.get(key) || []`). -/
def posOf (st : CalcState) (key : String) : List Position :=
  (alGet st.positions key).getD []

/-- The fresh `TokenPnL` object created when a key is first touched. -/
def defaultTokenPnL (symbol address chain : String) : TokenPnL :=
  { token_symbol := symbol, token_address := address, chain := chain,
    quantity_held := 0, average_buy_price_usd := 0, current_price_usd := 0,
    realized_pnl_usd := 0, unrealized_pnl_usd := 0, total_pnl_usd := 0,
    pnl_percentage := 0 }

/-- `updateTokenPnL` (source lines 162-196): accumulate realized P&L and
recompute holdings and average price from the stored lots of the key. -/
def updateTokenPnL (st : CalcState) (key chain symbol address : String)
    (realizedPnL : Rat) : CalcState :=
  let existing := (alGet st.tokenPnL key).getD (defaultTokenPnL symbol address chain)
  let lots := posOf st key
  let totalQuantity := sumQty lots
  let totalValue := sumValue lots
  let updated :=
    { existing with
      realized_pnl_usd := existing.realized_pnl_usd + realizedPnL,
      quantity_held := totalQuantity,
      average_buy_price_usd :=
        if 0 < totalQuantity then totalValue / totalQuantity else 0 }
  { st with tokenPnL := alSet st.tokenPnL key updated }

/-- `addPosition` (source lines 86-100). -/
def addPosition (st : CalcState) (key : String) (tx : Transaction) : CalcState :=
  let lots := posOf st key
  let newLot : Position :=
    { quantity := tx.quantity, price_usd := tx.price_usd,
      timestamp := tx.timestamp, tx_hash := tx.tx_hash }
  let st' := { st with positions := alSet st.positions key (lots ++ [newLot]) }
  updateTokenPnL st' key tx.chain tx.token_symbol tx.token_address 0

/-- `processTransaction` (source lines 73-81) together with the in-place
write of `tx.realized_pnl_usd` performed by `removePosition` (line 131):
returns the new state and the transaction object as the caller now sees it. -/
def processTransaction (method : String) (st : CalcState) (tx : Transaction) :
    CalcState × Transaction :=
  let key := getTokenKey tx.chain tx.token_symbol tx.token_address
  match tx.type with
  | TxType.buy => (addPosition st key tx, tx)
  | TxType.transfer_in => (addPosition st key tx, tx)
  | TxType.sell =>
      let d := removePosition method (posOf st key) tx.quantity tx.price_usd
      let st' := { st with positions := alSet st.positions key d.newLots }
      (updateTokenPnL st' key tx.chain tx.token_symbol tx.token_address d.realizedPnL,
       { tx with realized_pnl_usd := some d.realizedPnL })
  | TxType.transfer_out =>
      let d := removePosition method (posOf st key) tx.quantity tx.price_usd
      let st' := { st with positions := alSet st.positions key d.newLots }
      (updateTokenPnL st' key tx.chain tx.token_symbol tx.token_address d.realizedPnL,
       { tx with realized_pnl_usd := some d.realizedPnL })

/-- The replay loop of `calculate` (source lines 39-41): fold the state
through the sorted transactions, collecting the mutated transaction objects
in processing order. -/
def processAll (method : String) (st : CalcState) :
    List Transaction → CalcState × List Transaction
  | [] => (st, [])
  | tx :: rest =>
      let p := processTransaction method st tx
      let r := processAll method p.1 rest
      (r.1, p.2 :: r.2)

/-- The per-entry body of the `calculateUnrealizedPnL` loop (source lines
202-219). -/
def finalizeTok (currentPrices : List (String × Rat)) (pnl0 : TokenPnL) :
    TokenPnL :=
  let currentPrice := (alGet currentPrices pnl0.token_symbol).getD 0
  let pnl := { pnl0 with current_price_usd := currentPrice }
  let pnl :=
    if 0 < pnl.quantity_held then
      { pnl with unrealized_pnl_usd :=
          pnl.quantity_held * currentPrice -
            pnl.quantity_held * pnl.average_buy_price_usd }
    else pnl
  let pnl := { pnl with total_pnl_usd := pnl.realized_pnl_usd + pnl.unrealized_pnl_usd }
  let totalCostBasis :=
    pnl.quantity_held * pnl.average_buy_price_usd + |pnl.realized_pnl_usd|
  { pnl with pnl_percentage :=
      if 0 < totalCostBasis then pnl.total_pnl_usd / totalCostBasis * 100 else 0 }

/-- `calculateUnrealizedPnL` (source lines 201-220), as an in-order update
of every entry of the `tokenPnL` map. -/
def calculateUnrealizedPnL (currentPrices : List (String × Rat))
    (tokenPnL : List (String × TokenPnL)) : List (String × TokenPnL) :=
  tokenPnL.map (fun e => (e.1, finalizeTok currentPrices e.2))

/-- The accumulating step of the `aggregateByChain` loop (source lines
228-242). -/
def chainStep (m : List (String × ChainPnL)) (token : TokenPnL) :
    List (String × ChainPnL) :=
  let existing := (alGet m token.chain).getD
    { chain := token.chain, realized_pnl_usd := 0, unrealized_pnl_usd := 0,
      total_pnl_usd := 0, pnl_percentage := 0 }
  alSet m token.chain
    { existing with
      realized_pnl_usd := existing.realized_pnl_usd + token.realized_pnl_usd,
      unrealized_pnl_usd := existing.unrealized_pnl_usd + token.unrealized_pnl_usd,
      total_pnl_usd := existing.total_pnl_usd + token.total_pnl_usd }

/-- The percentage pass of `aggregateByChain` (source lines 245-249). -/
def chainPct (c : ChainPnL) : ChainPnL :=
  let totalInvested := |c.total_pnl_usd - c.realized_pnl_usd|
  { c with pnl_percentage :=
      if 0 < totalInvested then c.total_pnl_usd / totalInvested * 100 else 0 }

/-- `aggregateByChain` (source lines 225-252). -/
def aggregateByChain (tokens : List TokenPnL) : List ChainPnL :=
  let chainMap := tokens.foldl chainStep ([] : List (String × ChainPnL))
  chainMap.map (fun e => chainPct e.2)

/-- `calculateSummary` (source lines 257-302). -/
def calculateSummary (tokens : List TokenPnL) : PnLSummary :=
  let total_realized := tokens.foldl (fun s t => s + t.realized_pnl_usd) 0
  let total_unrealized := tokens.foldl (fun s t => s + t.unrealized_pnl_usd) 0
  let current_value :=
    tokens.foldl (fun s t => s + t.quantity_held * t.current_price_usd) 0
  let remaining_cost_basis :=
    tokens.foldl (fun s t => s + t.quantity_held * t.average_buy_price_usd) 0
  let total_sale_proceeds := tokens.foldl (fun s t => s + t.realized_pnl_usd) 0
  let initial_investment : Rat := remaining_cost_basis +
    (if 0 ≤ total_sale_proceeds then total_sale_proceeds else -total_sale_proceeds)
  let total_change := current_value - initial_investment
  let pnl_percentage :=
    if 0 < initial_investment then total_change / initial_investment * 100 else 0
  { total_realized_pnl_usd := total_realized,
    total_unrealized_pnl_usd := total_unrealized,
    total_pnl_usd := total_change,
    total_pnl_percentage := pnl_percentage,
    initial_investment_usd := initial_investment,
    current_value_usd := current_value }

/-- `[...new Set(xs)]`: deduplication keeping first occurrences. -/
def dedupKeepFirst (l : List String) : List String :=
  l.foldl (fun acc x => if x ∈ acc then acc else acc ++ [x]) []

/-- `calculate` (source lines 27-68), for a calculator constructed with the
given cost-basis `method` string. -/
def calculate (method : String) (transactions : List Transaction)
    (currentPrices : List (String × Rat)) : PnLResult :=
  let sortedTxs := transactions.insertionSort (fun a b => a.timestamp ≤ b.timestamp)
  let r := processAll method initState sortedTxs
  let finalTok := calculateUnrealizedPnL currentPrices r.1.tokenPnL
  let byToken := finalTok.map (fun e => e.2)
  let byChain := aggregateByChain byToken
  let summary := calculateSummary byToken
  let processedTxs := r.2.map (fun tx =>
    { tx with realized_pnl_usd :=
        if tx.type = TxType.sell then tx.realized_pnl_usd else none })
  { summary := summary,
    by_chain := byChain,
    by_token := byToken,
    transactions := processedTxs,
    chains_queried := dedupKeepFirst (transactions.map (fun tx => tx.chain)),
    data_sources := ["etherscan", "defillama", "coingecko"] }

/-- The replay loop over index-labelled transactions, used to model which
caller-owned objects `calculate` mutates in place. -/
def processAllIdx (method : String) (st : CalcState) :
    List (Nat × Transaction) → CalcState × List (Nat × Transaction)
  | [] => (st, [])
  | (i, tx) :: rest =>
      let p := processTransaction method st tx
      let r := processAllIdx method p.1 rest
      (r.1, (i, p.2) :: r.2)

/-- The caller's transaction array as it stands after `calculate` returns:
`calculate` shallow-copies the array (`[...transactions]`) but shares the
record objects, and `removePosition` writes `tx.realized_pnl_usd` onto the
shared objects (source line 131). -/
def callerTxsAfter (method : String) (transactions : List Transaction) :
    List Transaction :=
  let indexedSorted := transactions.enum.insertionSort
    (fun a b => a.2.timestamp ≤ b.2.timestamp)
  let r := processAllIdx method initState indexedSorted
  (List.range transactions.length).map (fun i =>
    ((r.2.find? (fun p => p.1 == i)).map (fun p => p.2)).getD default)

/-- The cost-basis-method validation performed at the application boundary:
both `src/agent.ts` and `src/index.ts` validate the request field with
`z.enum(["fifo", "lifo", "avg"])`, which rejects any other string with a
descriptive parse error before a calculator is constructed. -/
def parseCostBasisMethod (s : String) : Except String String :=
  if s = "fifo" ∨ s = "lifo" ∨ s = "avg" then Except.ok s
  else Except.error ("Invalid enum value. Expected fifo | lifo | avg, received " ++ s)

end WalletTracker

namespace WalletTracker

/-! ## Concrete scenarios used by the claims -/

/-- Acquisition of quantity 2 at unit price 1800 (timestamp 1). -/
def buyA : Transaction :=
  { tx_hash := "0xa", chain := "ethereum", timestamp := 1, type := TxType.buy,
    token_symbol := "ETH", token_address := "0x0", quantity := 2,
    price_usd := 1800, total_value_usd := 3600 }

/-- Acquisition of quantity 1 at unit price 2000 (timestamp 2). -/
def buyB : Transaction :=
  { buyA with
    tx_hash := "0xb", timestamp := 2, quantity := 1,
    price_usd := 2000, total_value_usd := 2000 }

/-- Disposal of quantity 1 at unit price 2200 (timestamp 3). -/
def sellC : Transaction :=
  { buyA with
    tx_hash := "0xc", timestamp := 3, type := TxType.sell,
    quantity := 1, price_usd := 2200, total_value_usd := 2200 }

/-- The canonical regression scenario of the spec. -/
def c1Txs : List Transaction := [buyA, buyB, sellC]

/-- The single-lot ledger used by the oversell and avg-mutation scenarios:
quantity 2 acquired at unit price 10. -/
def oneLot : Position :=
  { quantity := 2, price_usd := 10, timestamp := 0, tx_hash := "0xa" }

/-! ## C1 -/

/-- C1: processing acquisitions (qty 2 @ 1800) then (qty 1 @ 2000), then a
disposal of qty 1 @ 2200, yields a realized P&L on the disposal of exactly
400 under fifo, exactly 200 under lifo, and exactly 2200 − (2·1800+1·2000)/3
under avg, which is within 1/100 of 333.33. -/
theorem c1_fifo_lifo_avg_divergence :
    ((calculate "fifo" c1Txs []).transactions.map
        (fun t => t.realized_pnl_usd)) = [none, none, some 400] ∧
    ((calculate "lifo" c1Txs []).transactions.map
        (fun t => t.realized_pnl_usd)) = [none, none, some 200] ∧
    ((calculate "avg" c1Txs []).transactions.map
        (fun t => t.realized_pnl_usd)) =
      [none, none, some (2200 - (2 * 1800 + 1 * 2000) / 3)] ∧
    |(2200 - (2 * 1800 + 1 * 2000) / 3 : Rat) - 33333 / 100| ≤ 1 / 100 := by
  refine ⟨?_, ?_, ?_, by norm_num [abs_le]⟩ <;>
    norm_num [calculate, processAll, processTransaction, addPosition,
      removePosition, consume, lookupAmt, updateTokenPnL, posOf, alGet, alSet,
      getTokenKey, strToLower, sumQty, sumValue, initState, defaultTokenPnL,
      c1Txs, buyA, buyB, sellC, List.insertionSort, List.orderedInsert,
      min_def]

end WalletTracker

namespace WalletTracker

/-! ## C5: the avg branch never decrements the stored lots -/

/-- C5 (failing run): after a disposal of quantity 1 under the `avg` method
against a single stored lot of quantity 2, the sum of remaining lot
quantities is still 2, not the claimed 2 − min(1, 2) = 1: the consumption
loop decremented the fresh objects built by `orderPositions("avg")`, not
the stored lots.  Under `fifo` the same disposal does decrement the ledger
to 1, isolating the divergence to the `avg` branch. -/
theorem c5_avg_disposal_leaves_lots_undecremented :
    sumQty (removePosition "avg" [oneLot] 1 12).newLots = 2 ∧
    sumQty [oneLot] - min 1 (sumQty [oneLot]) = 1 ∧
    sumQty (removePosition "fifo" [oneLot] 1 12).newLots = 1 := by
  refine ⟨?_, ?_, ?_⟩ <;>
    simp [removePosition, consume, lookupAmt, sumQty, sumValue, oneLot,
      List.insertionSort, List.orderedInsert, min_def] <;>
    norm_num

/-! ## C8: the engine does not validate the method string -/

/-- C8 (counterexample): with the unrecognized method string `"hodl"` the
engine does not fail: `orderPositions` silently falls through its `default`
branch, returning the lots unchanged, and a full `calculate` run produces a
numeric realized P&L (400 on the canonical scenario). -/
theorem c8_unknown_method_produces_numbers :
    orderPositions "hodl"
      [oneLot, { oneLot with timestamp := -1, price_usd := 3 }] =
      [oneLot, { oneLot with timestamp := -1, price_usd := 3 }] ∧
    ((calculate "hodl" c1Txs []).transactions.map
        (fun t => t.realized_pnl_usd)) = [none, none, some 400] := by
  constructor
  · simp [orderPositions]
  · simp [calculate, processAll, processTransaction, addPosition,
      removePosition, consume, lookupAmt, updateTokenPnL, posOf, alGet, alSet,
      getTokenKey, strToLower, sumQty, sumValue, initState, defaultTokenPnL,
      c1Txs, buyA, buyB, sellC, min_def] <;> norm_num

/-- C8 (amended): the engine itself accepts any method string — every
selector outside `fifo` / `lifo` / `avg` makes `orderPositions` return the
lots unchanged (insertion-order consumption), producing numeric results —
while the unrecognized selector is instead rejected with a descriptive
parse error by the `z.enum(["fifo", "lifo", "avg"])` validation at the
`agent.ts` / `index.ts` boundary. -/
theorem c8_validation_at_boundary_not_engine (m : String)
    (hf : m ≠ "fifo") (hl : m ≠ "lifo") (ha : m ≠ "avg") :
    (∀ lots, orderPositions m lots = lots) ∧
    parseCostBasisMethod m =
      Except.error ("Invalid enum value. Expected fifo | lifo | avg, received " ++ m) := by
  constructor
  · intro lots
    simp [orderPositions, hf, hl, ha]
  · simp [parseCostBasisMethod, hf, hl, ha]

/-- C8 witness at the concrete selector `"hodl"`. -/
theorem c8_validation_at_boundary_not_engine_witness :
    ("hodl" ≠ "fifo" ∧ "hodl" ≠ "lifo" ∧ "hodl" ≠ "avg") ∧
    ((∀ lots, orderPositions "hodl" lots = lots) ∧
      parseCostBasisMethod "hodl" =
        Except.error ("Invalid enum value. Expected fifo | lifo | avg, received " ++ "hodl")) :=
  ⟨⟨by decide, by decide, by decide⟩,
    c8_validation_at_boundary_not_engine "hodl" (by decide) (by decide) (by decide)⟩

/-! ## C7 and C9 counterexamples -/

/-- Acquisition of 1 unit at price 10, timestamp 5. -/
def tieBuy : Transaction :=
  { buyA with tx_hash := "0xd", timestamp := 5, quantity := 1, price_usd := 10,
              total_value_usd := 10 }

/-- Disposal of 1 unit at price 20, with the same timestamp 5. -/
def tieSell : Transaction :=
  { tieBuy with tx_hash := "0xe", type := TxType.sell, price_usd := 20,
                total_value_usd := 20 }

/-- C7 (counterexample): with two transactions sharing a timestamp, the
stable sort preserves their input order, so permuting the input changes the
result: buy-then-sell realizes 10, sell-then-buy realizes 20 (the disposal
finds no lots), and the two `calculate` results differ. -/
theorem c7_tied_timestamps_break_order_independence :
    List.Perm [tieBuy, tieSell] [tieSell, tieBuy] ∧
    (calculate "fifo" [tieBuy, tieSell] []).summary.total_realized_pnl_usd = 10 ∧
    (calculate "fifo" [tieSell, tieBuy] []).summary.total_realized_pnl_usd = 20 ∧
    calculate "fifo" [tieBuy, tieSell] [] ≠ calculate "fifo" [tieSell, tieBuy] [] := by
  have h1 : (calculate "fifo" [tieBuy, tieSell] []).summary.total_realized_pnl_usd = 10 := by
    simp [calculate, processAll, processTransaction, addPosition,
      removePosition, consume, lookupAmt, updateTokenPnL, posOf, alGet, alSet,
      getTokenKey, strToLower, sumQty, sumValue, initState, defaultTokenPnL,
      calculateSummary, calculateUnrealizedPnL, finalizeTok, aggregateByChain, chainStep, chainPct, dedupKeepFirst,
      tieBuy, tieSell, buyA, List.insertionSort, List.orderedInsert, min_def] <;>
      norm_num
  have h2 : (calculate "fifo" [tieSell, tieBuy] []).summary.total_realized_pnl_usd = 20 := by
    simp [calculate, processAll, processTransaction, addPosition,
      removePosition, consume, lookupAmt, updateTokenPnL, posOf, alGet, alSet,
      getTokenKey, strToLower, sumQty, sumValue, initState, defaultTokenPnL,
      calculateSummary, calculateUnrealizedPnL, finalizeTok, aggregateByChain, chainStep, chainPct, dedupKeepFirst,
      tieBuy, tieSell, buyA, List.insertionSort, List.orderedInsert, min_def] <;>
      norm_num
  refine ⟨List.Perm.swap tieSell tieBuy [], h1, h2, fun h => ?_⟩
  have h3 : (10 : Rat) = 20 := by rw [← h1, ← h2, h]
  norm_num at h3

/-- C9 (counterexample): `calculate` writes `realized_pnl_usd` onto the
caller's transaction record in place: after a run over a single sell, the
caller's array no longer equals its pre-call value. -/
theorem c9_calculate_mutates_caller_transactions :
    callerTxsAfter "fifo" [sellC] ≠ [sellC] ∧
    (callerTxsAfter "fifo" [sellC]).map (fun t => t.realized_pnl_usd) = [some 2200] ∧
    sellC.realized_pnl_usd = none := by
  have h : (callerTxsAfter "fifo" [sellC]).map (fun t => t.realized_pnl_usd) = [some 2200] := by
    simp [callerTxsAfter, processAllIdx, processTransaction, addPosition,
      removePosition, consume, lookupAmt, updateTokenPnL, posOf, alGet, alSet,
      getTokenKey, strToLower, sumQty, sumValue, initState, defaultTokenPnL,
      sellC, buyA, List.insertionSort, List.orderedInsert, List.range_succ,
      List.find?, min_def] <;> norm_num
  refine ⟨fun hEq => ?_, h, by simp [sellC, buyA]⟩
  rw [hEq] at h
  simp [sellC, buyA] at h

end WalletTracker

namespace WalletTracker

/-! ## Association-list and folding lemmas -/

theorem alGet_alSet_self {α : Type} (m : List (String × α)) (k : String) (v : α) :
    alGet (alSet m k v) k = some v := by
  induction m with
  | nil => simp [alGet, alSet]
  | cons hd tl ih =>
      obtain ⟨k', v'⟩ := hd
      by_cases h : k' = k
      · simp [alGet, alSet, h]
      · simp [alGet, alSet, h, ih]

theorem alGet_alSet_ne {α : Type} (m : List (String × α)) (k k' : String) (v : α)
    (h : k ≠ k') : alGet (alSet m k v) k' = alGet m k' := by
  induction m with
  | nil => simp [alGet, alSet, h]
  | cons hd tl ih =>
      obtain ⟨k'', v'⟩ := hd
      by_cases h2 : k'' = k
      · subst h2
        simp [alGet, alSet, h]
      · simp [alGet, alSet, h2, ih]

theorem foldl_add_eq_sum {α : Type} (f : α → Rat) (l : List α) (a : Rat) :
    l.foldl (fun s x => s + f x) a = a + (l.map f).sum := by
  induction l generalizing a with
  | nil => simp
  | cons hd tl ih => simp [List.foldl_cons, ih, add_assoc]

theorem sumQty_eq_sum (lots : List Position) :
    sumQty lots = (lots.map (fun p => p.quantity)).sum := by
  simp [sumQty, foldl_add_eq_sum]

theorem sumValue_eq_sum (lots : List Position) :
    sumValue lots = (lots.map (fun p => p.quantity * p.price_usd)).sum := by
  simp [sumValue, foldl_add_eq_sum]

/-! ## Lemmas on the consumption loop -/

theorem consume_fst_eq_sum (L : List (Nat × Position)) (rem : Rat) :
    (consume L rem).1 = ((consume L rem).2.map (fun s => s.2.1 * s.2.2)).sum := by
  induction L generalizing rem with
  | nil => simp [consume]
  | cons hd tl ih =>
      obtain ⟨i, p⟩ := hd
      by_cases h : 0 < rem
      · simp [consume, h, ih]
      · simp [consume, h]

theorem removePosition_realized_eq (method : String) (lots : List Position)
    (txQty txPrice : Rat) :
    (removePosition method lots txQty txPrice).realizedPnL =
      txQty * txPrice -
        ((removePosition method lots txQty txPrice).selections.map
          (fun s => s.2.1 * s.2.2)).sum := by
  simp only [removePosition]
  rw [← consume_fst_eq_sum]

/-! ## C2 -/

/-- C2: for every disposal transaction, under every method string, the
realized P&L recorded onto the transaction equals
`tx.quantity × tx.price_usd` minus the cost basis consumed from the
selected lots (the sum of `quantity consumed × unit cost` over the
selections made by the consumption loop). -/
theorem c2_realized_is_proceeds_minus_consumed_basis
    (method : String) (st : CalcState) (tx : Transaction)
    (h : tx.type = TxType.sell ∨ tx.type = TxType.transfer_out) :
    (processTransaction method st tx).2.realized_pnl_usd =
      some (tx.quantity * tx.price_usd -
        (((removePosition method
              (posOf st (getTokenKey tx.chain tx.token_symbol tx.token_address))
              tx.quantity tx.price_usd).selections).map
            (fun s => s.2.1 * s.2.2)).sum) := by
  rcases h with h | h <;>
    simp [processTransaction, h, ← removePosition_realized_eq]

/-- C2 witness at the canonical disposal. -/
theorem c2_realized_is_proceeds_minus_consumed_basis_witness :
    (sellC.type = TxType.sell ∨ sellC.type = TxType.transfer_out) ∧
    (processTransaction "fifo" initState sellC).2.realized_pnl_usd =
      some (sellC.quantity * sellC.price_usd -
        (((removePosition "fifo"
              (posOf initState (getTokenKey sellC.chain sellC.token_symbol sellC.token_address))
              sellC.quantity sellC.price_usd).selections).map
            (fun s => s.2.1 * s.2.2)).sum) :=
  ⟨Or.inl rfl,
    c2_realized_is_proceeds_minus_consumed_basis "fifo" initState sellC (Or.inl rfl)⟩

end WalletTracker

namespace WalletTracker

/-! ## C3 -/

theorem calculateSummary_initial_investment (tokens : List TokenPnL) :
    (calculateSummary tokens).initial_investment_usd =
      (tokens.map (fun t => t.quantity_held * t.average_buy_price_usd)).sum +
        |(tokens.map (fun t => t.realized_pnl_usd)).sum| := by
  simp only [calculateSummary, foldl_add_eq_sum, zero_add]
  rcases le_or_lt 0 ((tokens.map (fun t => t.realized_pnl_usd)).sum) with h | h
  · rw [if_pos h, abs_of_nonneg h]
  · rw [if_neg (not_le.mpr h), abs_of_neg h]

/-- C3: for every run, the summary's `initial_investment_usd` equals the
remaining cost basis (Σ quantity_held × average_buy_price_usd over the
by-token entries) plus the absolute value of the total realized P&L, and
`total_pnl_usd` equals `current_value_usd − initial_investment_usd` (it is
derived from current value minus initial investment, not as
realized + unrealized). -/
theorem c3_summary_totals (method : String) (txs : List Transaction)
    (prices : List (String × Rat)) :
    (calculate method txs prices).summary.initial_investment_usd =
      ((calculate method txs prices).by_token.map
          (fun t => t.quantity_held * t.average_buy_price_usd)).sum +
        |((calculate method txs prices).by_token.map
            (fun t => t.realized_pnl_usd)).sum| ∧
    (calculate method txs prices).summary.total_pnl_usd =
      (calculate method txs prices).summary.current_value_usd -
        (calculate method txs prices).summary.initial_investment_usd := by
  have hsum : (calculate method txs prices).summary =
      calculateSummary ((calculate method txs prices).by_token) := rfl
  constructor
  · rw [hsum, calculateSummary_initial_investment]
  · rw [hsum]
    simp only [calculateSummary]

/-! ## C4 -/

theorem sum_nonneg_of_qty_nonneg (L : List (Nat × Position))
    (hq : ∀ ip ∈ L, 0 ≤ ip.2.quantity) :
    0 ≤ (L.map (fun ip => ip.2.quantity)).sum := by
  apply List.sum_nonneg
  intro x hx
  obtain ⟨ip, hip, rfl⟩ := List.mem_map.mp hx
  exact hq ip hip

theorem value_sum_zero_of_qty_sum_nonpos (L : List (Nat × Position))
    (hq : ∀ ip ∈ L, 0 ≤ ip.2.quantity)
    (h : (L.map (fun ip => ip.2.quantity)).sum ≤ 0) :
    (L.map (fun ip => ip.2.quantity * ip.2.price_usd)).sum = 0 := by
  induction L with
  | nil => simp
  | cons hd tl ih =>
      have hhd : 0 ≤ hd.2.quantity := hq hd (List.mem_cons_self hd tl)
      have htl : ∀ ip ∈ tl, 0 ≤ ip.2.quantity :=
        fun ip hip => hq ip (List.mem_cons_of_mem hd hip)
      have htls : 0 ≤ (tl.map (fun ip => ip.2.quantity)).sum :=
        sum_nonneg_of_qty_nonneg tl htl
      simp only [List.map_cons, List.sum_cons] at h ⊢
      have hz : hd.2.quantity = 0 := le_antisymm (by linarith) hhd
      rw [hz, zero_mul, zero_add]
      exact ih htl (by linarith)

/-- When the requested quantity covers the whole list, the loop consumes
every lot entirely and the accumulated basis is the full stored value. -/
theorem consume_all (L : List (Nat × Position)) (rem : Rat)
    (hq : ∀ ip ∈ L, 0 ≤ ip.2.quantity)
    (h : (L.map (fun ip => ip.2.quantity)).sum ≤ rem) :
    (consume L rem).1 = (L.map (fun ip => ip.2.quantity * ip.2.price_usd)).sum := by
  induction L generalizing rem with
  | nil => simp [consume]
  | cons hd tl ih =>
      obtain ⟨i, p⟩ := hd
      have hp : 0 ≤ p.quantity := hq (i, p) (List.mem_cons_self _ tl)
      have htl : ∀ ip ∈ tl, 0 ≤ ip.2.quantity :=
        fun ip hip => hq ip (List.mem_cons_of_mem _ hip)
      have htls : 0 ≤ (tl.map (fun ip => ip.2.quantity)).sum :=
        sum_nonneg_of_qty_nonneg tl htl
      simp only [List.map_cons, List.sum_cons] at h
      by_cases hrem : 0 < rem
      · have hmin : min p.quantity rem = p.quantity := min_eq_left (by linarith)
        simp only [consume, if_pos hrem, hmin]
        rw [ih (rem - p.quantity) htl (by linarith)]
        simp [List.map_cons, List.sum_cons]
      · have hrem0 : rem ≤ 0 := not_lt.mp hrem
        simp only [consume, if_neg hrem]
        have := value_sum_zero_of_qty_sum_nonpos ((i, p) :: tl) hq (by
          simp only [List.map_cons, List.sum_cons]
          linarith)
        simp only [List.map_cons, List.sum_cons] at this
        simp [this]

theorem map_snd_enum {α : Type} (l : List α) : l.enum.map Prod.snd = l := by
  simp [List.enum_map_snd]

theorem enum_qty_sum (lots : List Position) :
    (lots.enum.map (fun ip => ip.2.quantity)).sum = sumQty lots := by
  have h : lots.enum.map (fun ip => ip.2.quantity) =
      lots.map (fun p => p.quantity) := by
    calc lots.enum.map (fun ip => ip.2.quantity)
        = (lots.enum.map Prod.snd).map (fun p => p.quantity) := by
          rw [List.map_map]
          rfl
      _ = lots.map (fun p => p.quantity) := by rw [List.enum_map_snd]
  rw [h, ← sumQty_eq_sum]

theorem enum_val_sum (lots : List Position) :
    (lots.enum.map (fun ip => ip.2.quantity * ip.2.price_usd)).sum = sumValue lots := by
  have h : lots.enum.map (fun ip => ip.2.quantity * ip.2.price_usd) =
      lots.map (fun p => p.quantity * p.price_usd) := by
    calc lots.enum.map (fun ip => ip.2.quantity * ip.2.price_usd)
        = (lots.enum.map Prod.snd).map (fun p => p.quantity * p.price_usd) := by
          rw [List.map_map]
          rfl
      _ = lots.map (fun p => p.quantity * p.price_usd) := by rw [List.enum_map_snd]
  rw [h, ← sumValue_eq_sum]

/-! ### JavaScript numbers on the avg-disposal path

Finite arithmetic is modelled exactly by rationals everywhere in this
file.  The one place where that approximation is visible is the unguarded
pooled-price division of the `avg` branch (`avgPrice = totalValue /
totalQuantity`, source line 152): when the stored lots sum to zero
quantity, JavaScript computes `0/0 = NaN`, which then poisons
`totalCostBasis += quantityToSell * position.price_usd` and the realized
P&L, while rational division renders `0/0` as `0`.  The definitions below
model that error path faithfully. -/

/-- A JavaScript number on the avg-disposal path: `some q` is the finite
value `q`, tracked exactly; `none` is a non-finite value (`NaN` or an
infinity). -/
abbrev JSNum : Type := Option Rat

/-- A finite JavaScript number. -/
def jsFin (q : Rat) : JSNum := some q

/-- JavaScript `+` on this path: a non-finite operand never yields a
finite sum. -/
def jsAdd : JSNum → JSNum → JSNum
  | some a, some b => some (a + b)
  | _, _ => none

/-- JavaScript `-`: same non-finite propagation. -/
def jsSub : JSNum → JSNum → JSNum
  | some a, some b => some (a - b)
  | _, _ => none

/-- JavaScript `*`: same non-finite propagation (`0 * NaN = NaN`,
`0 * Infinity = NaN`). -/
def jsMul : JSNum → JSNum → JSNum
  | some a, some b => some (a * b)
  | _, _ => none

/-- The one unguarded division of the engine (source line 152), on the
finite operands it receives there: a zero divisor yields a non-finite
value (`0/0 = NaN`, nonzero/0 an infinity). -/
def jsDiv (a b : Rat) : JSNum := if b = 0 then none else some (a / b)

/-- A lot as the consumption loop sees it after `orderPositions`: the
quantity (always finite on this path) and the price field, which on the
fresh copies built by the `avg` branch is the possibly non-finite pooled
price. -/
structure JSPosition where
  quantity : Rat
  price_usd : JSNum
deriving DecidableEq, Repr

/-- `orderPositions` (source lines 139-157) with the unguarded `avg`
division on JavaScript numbers. -/
def orderPositionsJS (method : String) (positions : List Position) :
    List JSPosition :=
  if method = "fifo" then
    (positions.insertionSort (fun a b => a.timestamp ≤ b.timestamp)).map
      (fun p => ⟨p.quantity, jsFin p.price_usd⟩)
  else if method = "lifo" then
    (positions.insertionSort (fun a b => b.timestamp ≤ a.timestamp)).map
      (fun p => ⟨p.quantity, jsFin p.price_usd⟩)
  else if method = "avg" then
    let avgPrice := jsDiv (sumValue positions) (sumQty positions)
    positions.map (fun p => ⟨p.quantity, avgPrice⟩)
  else positions.map (fun p => ⟨p.quantity, jsFin p.price_usd⟩)

/-- The cost-basis accumulation of `removePosition` (source lines
113-120) on JavaScript numbers: `totalCostBasis += quantityToSell *
position.price_usd` with `quantityToSell = min(position.quantity,
remainingQuantity)`; quantities stay finite, a non-finite price poisons
the total. -/
def consumeJS : List JSPosition → Rat → JSNum
  | [], _ => jsFin 0
  | p :: rest, rem =>
      if 0 < rem then
        let take := min p.quantity rem
        jsAdd (jsMul (jsFin take) p.price_usd) (consumeJS rest (rem - take))
      else jsFin 0

/-- The figures `removePosition` (source lines 105-134) computes, on
JavaScript numbers: the consumed cost basis and
`realizedPnL = saleProceeds - totalCostBasis`. -/
def removePositionJS (method : String) (lots : List Position)
    (txQty txPrice : Rat) : JSNum × JSNum :=
  let costBasis := consumeJS (orderPositionsJS method lots) txQty
  (costBasis, jsSub (jsFin (txQty * txPrice)) costBasis)

/-- A stored zero-quantity lot: the result of a zero-quantity acquisition,
which `addPosition` pushes unfiltered. -/
def zeroLot : Position :=
  { quantity := 0, price_usd := 10, timestamp := 0, tx_hash := "0xz0" }

/-- C4 (code bug, evaluating run): the claimed oversell behaviour —
consume all available lots, give the shortfall zero cost basis, never
fail — holds at the claim's concrete numbers under all three methods
(cost basis 20, realized 40), and holds under `fifo` even against a
ledger holding only a zero-quantity lot (cost basis 0, realized 60); but
under `avg` the same zero-quantity ledger hits the unguarded `0/0`
pooled-price division, so cost basis and realized P&L are non-finite
(`NaN`) instead of the 0 and 60 the claim requires. -/
theorem c4_oversell_nan_poisons_avg_zero_quantity_ledger :
    (removePositionJS "fifo" [oneLot] 5 12 = (jsFin 20, jsFin 40) ∧
      removePositionJS "lifo" [oneLot] 5 12 = (jsFin 20, jsFin 40) ∧
      removePositionJS "avg" [oneLot] 5 12 = (jsFin 20, jsFin 40)) ∧
    removePositionJS "fifo" [zeroLot] 5 12 = (jsFin 0, jsFin 60) ∧
    removePositionJS "avg" [zeroLot] 5 12 = (none, none) := by
  refine ⟨⟨?_, ?_, ?_⟩, ?_, ?_⟩ <;>
    norm_num [removePositionJS, orderPositionsJS, consumeJS, jsDiv, jsAdd,
      jsMul, jsSub, jsFin, sumQty, sumValue, oneLot, zeroLot,
      List.insertionSort, List.orderedInsert, min_def, Prod.ext_iff]

/-- The boundary that forces the avg proviso of the amended C10: a sell
against an empty ledger realizes the full proceeds (the loop never runs),
but once a zero-quantity acquisition has stored a lot, the same sell
under `avg` divides `0/0` and realizes `NaN`. -/
theorem avg_disposal_on_zero_quantity_ledger_diverges :
    removePositionJS "avg" [] 1 20 = (jsFin 0, jsFin 20) ∧
    removePositionJS "avg" [zeroLot] 1 20 = (none, none) := by
  constructor <;>
    norm_num [removePositionJS, orderPositionsJS, consumeJS, jsDiv, jsAdd,
      jsMul, jsSub, jsFin, sumQty, sumValue, zeroLot, min_def, Prod.ext_iff]

end WalletTracker

namespace WalletTracker

/-! ## C6 -/

theorem posOf_set_self (st : CalcState) (k : String) (v : List Position) :
    posOf { st with positions := alSet st.positions k v } k = v := by
  simp [posOf, alGet_alSet_self]

theorem posOf_set_ne (st : CalcState) (k key : String) (v : List Position)
    (h : k ≠ key) :
    posOf { st with positions := alSet st.positions k v } key = posOf st key := by
  simp [posOf, alGet_alSet_ne _ _ _ _ h]

/-- Every lot stored back by `removePosition` has positive quantity: the
source filters with `p.quantity > 0` in every branch. -/
theorem removePosition_newLots_pos (method : String) (lots : List Position)
    (txQty txPrice : Rat) :
    ∀ p ∈ (removePosition method lots txQty txPrice).newLots, 0 < p.quantity := by
  intro p hp
  simp only [removePosition] at hp
  have := (List.mem_filter.mp hp).2
  simpa using this

theorem posOf_addPosition_self (st : CalcState) (key : String) (tx : Transaction) :
    posOf (addPosition st key tx) key =
      posOf st key ++
        [{ quantity := tx.quantity, price_usd := tx.price_usd,
           timestamp := tx.timestamp, tx_hash := tx.tx_hash }] := by
  simp [addPosition, updateTokenPnL, posOf, alGet_alSet_self]

theorem posOf_addPosition_ne (st : CalcState) (key key' : String) (tx : Transaction)
    (h : key ≠ key') :
    posOf (addPosition st key tx) key' = posOf st key' := by
  simp [addPosition, updateTokenPnL, posOf, alGet_alSet_ne _ _ _ _ h]

theorem posOf_updateTokenPnL (st : CalcState) (k c s a : String) (r : Rat)
    (key : String) :
    posOf (updateTokenPnL st k c s a r) key = posOf st key := rfl

theorem processTransaction_nonneg (method : String) (st : CalcState)
    (tx : Transaction)
    (hst : ∀ key p, p ∈ posOf st key → 0 ≤ p.quantity)
    (htx : 0 ≤ tx.quantity) :
    ∀ key p, p ∈ posOf (processTransaction method st tx).1 key → 0 ≤ p.quantity := by
  intro key p hp
  cases htype : tx.type
  case buy | transfer_in =>
    simp only [processTransaction, htype] at hp
    by_cases hkey : getTokenKey tx.chain tx.token_symbol tx.token_address = key
    · subst hkey
      rw [posOf_addPosition_self] at hp
      rcases List.mem_append.mp hp with hmem | hmem
      · exact hst _ p hmem
      · rw [List.mem_singleton.mp hmem]
        exact htx
    · rw [posOf_addPosition_ne st _ key tx hkey] at hp
      exact hst key p hp
  case sell | transfer_out =>
    simp only [processTransaction, htype] at hp
    rw [posOf_updateTokenPnL] at hp
    by_cases hkey : getTokenKey tx.chain tx.token_symbol tx.token_address = key
    · subst hkey
      rw [posOf_set_self] at hp
      exact le_of_lt (removePosition_newLots_pos method _ tx.quantity tx.price_usd p hp)
    · rw [posOf_set_ne st _ key _ hkey] at hp
      exact hst key p hp

theorem processAll_nonneg (method : String) (l : List Transaction) (st : CalcState)
    (hst : ∀ key p, p ∈ posOf st key → 0 ≤ p.quantity)
    (hl : ∀ tx ∈ l, 0 ≤ tx.quantity) :
    ∀ key p, p ∈ posOf (processAll method st l).1 key → 0 ≤ p.quantity := by
  induction l generalizing st with
  | nil => exact hst
  | cons tx rest ih =>
      simp only [processAll]
      exact ih (processTransaction method st tx).1
        (processTransaction_nonneg method st tx hst (hl tx (List.mem_cons_self tx rest)))
        (fun t ht => hl t (List.mem_cons_of_mem tx ht))

/-- The engine state after processing the first `n` transactions of the
time-sorted input (an arbitrary intermediate point of the replay loop). -/
def stateAfter (method : String) (txs : List Transaction) (n : Nat) : CalcState :=
  (processAll method initState
    ((txs.insertionSort (fun a b => a.timestamp ≤ b.timestamp)).take n)).1

/-- C6: starting from transactions with non-negative quantities, at every
intermediate point of the replay every stored lot has non-negative
`quantity_remaining`, and hence the per-key sum of remaining quantities is
non-negative — even when disposals oversell. -/
theorem c6_lot_quantities_never_negative (method : String) (txs : List Transaction)
    (h : ∀ tx ∈ txs, 0 ≤ tx.quantity) (n : Nat) (key : String) :
    (∀ p ∈ posOf (stateAfter method txs n) key, 0 ≤ p.quantity) ∧
    0 ≤ sumQty (posOf (stateAfter method txs n) key) := by
  have hsorted : ∀ tx ∈ txs.insertionSort (fun a b => a.timestamp ≤ b.timestamp),
      0 ≤ tx.quantity :=
    fun tx htx => h tx ((List.perm_insertionSort _ _).mem_iff.mp htx)
  have htake : ∀ tx ∈ (txs.insertionSort (fun a b => a.timestamp ≤ b.timestamp)).take n,
      0 ≤ tx.quantity :=
    fun tx htx => hsorted tx (List.mem_of_mem_take htx)
  have hinit : ∀ key p, p ∈ posOf initState key → 0 ≤ p.quantity := by
    intro key p hp
    simp [posOf, initState, alGet] at hp
  have hmain := processAll_nonneg method _ initState hinit htake
  refine ⟨fun p hp => hmain key p hp, ?_⟩
  rw [sumQty_eq_sum]
  apply List.sum_nonneg
  intro x hx
  obtain ⟨p, hp, rfl⟩ := List.mem_map.mp hx
  exact hmain key p hp

/-- C6 witness on the canonical scenario after all three transactions. -/
theorem c6_lot_quantities_never_negative_witness :
    (∀ tx ∈ c1Txs, 0 ≤ tx.quantity) ∧
    ((∀ p ∈ posOf (stateAfter "fifo" c1Txs 3)
          (getTokenKey "ethereum" "ETH" "0x0"), 0 ≤ p.quantity) ∧
      0 ≤ sumQty (posOf (stateAfter "fifo" c1Txs 3)
          (getTokenKey "ethereum" "ETH" "0x0"))) := by
  have hh : ∀ tx ∈ c1Txs, 0 ≤ tx.quantity := by
    intro tx htx
    simp only [c1Txs, List.mem_cons, List.not_mem_nil, or_false] at htx
    rcases htx with rfl | rfl | rfl <;> norm_num [buyA, buyB, sellC]
  exact ⟨hh, c6_lot_quantities_never_negative "fifo" c1Txs hh 3
    (getTokenKey "ethereum" "ETH" "0x0")⟩

end WalletTracker

namespace WalletTracker

/-! ## C7 (amended): order independence under distinct timestamps -/

theorem insertionSort_eq_of_perm_distinct (txs1 txs2 : List Transaction)
    (hperm : List.Perm txs1 txs2)
    (hnodup : (txs1.map (fun tx => tx.timestamp)).Nodup) :
    txs1.insertionSort (fun a b => a.timestamp ≤ b.timestamp) =
      txs2.insertionSort (fun a b => a.timestamp ≤ b.timestamp) := by
  haveI htot : IsTotal Transaction (fun a b => a.timestamp ≤ b.timestamp) :=
    ⟨fun a b => le_total a.timestamp b.timestamp⟩
  haveI htrans : IsTrans Transaction (fun a b => a.timestamp ≤ b.timestamp) :=
    ⟨fun a b c hab hbc => le_trans hab hbc⟩
  haveI hanti : IsAntisymm Transaction (fun a b => a.timestamp < b.timestamp) :=
    ⟨fun a b h1 h2 => absurd h2 (not_lt.mpr (le_of_lt h1))⟩
  set s1 := txs1.insertionSort (fun a b => a.timestamp ≤ b.timestamp) with hs1
  set s2 := txs2.insertionSort (fun a b => a.timestamp ≤ b.timestamp) with hs2
  have hp1 : List.Perm s1 txs1 := List.perm_insertionSort _ _
  have hp2 : List.Perm s2 txs2 := List.perm_insertionSort _ _
  have hp : List.Perm s1 s2 := (hp1.trans hperm).trans hp2.symm
  have hsorted1 : s1.Sorted (fun a b => a.timestamp ≤ b.timestamp) :=
    List.sorted_insertionSort _ _
  have hsorted2 : s2.Sorted (fun a b => a.timestamp ≤ b.timestamp) :=
    List.sorted_insertionSort _ _
  have hne1 : s1.Pairwise (fun a b => a.timestamp ≠ b.timestamp) := by
    have : (s1.map (fun tx => tx.timestamp)).Nodup :=
      ((hp1.map (fun tx => tx.timestamp)).nodup_iff).mpr hnodup
    exact List.pairwise_map.mp this
  have hne2 : s2.Pairwise (fun a b => a.timestamp ≠ b.timestamp) := by
    have hnodup2 : (txs2.map (fun tx => tx.timestamp)).Nodup :=
      ((hperm.map (fun tx => tx.timestamp)).nodup_iff).mp hnodup
    have : (s2.map (fun tx => tx.timestamp)).Nodup :=
      ((hp2.map (fun tx => tx.timestamp)).nodup_iff).mpr hnodup2
    exact List.pairwise_map.mp this
  have hstrict1 : s1.Sorted (fun a b => a.timestamp < b.timestamp) :=
    (hsorted1.and hne1).imp (fun h => lt_of_le_of_ne h.1 h.2)
  have hstrict2 : s2.Sorted (fun a b => a.timestamp < b.timestamp) :=
    (hsorted2.and hne2).imp (fun h => lt_of_le_of_ne h.1 h.2)
  exact List.eq_of_perm_of_sorted hp hstrict1 hstrict2

theorem mem_dedup_foldl (x : String) (l acc : List String) :
    x ∈ l.foldl (fun acc y => if y ∈ acc then acc else acc ++ [y]) acc ↔
      x ∈ acc ∨ x ∈ l := by
  induction l generalizing acc with
  | nil => simp
  | cons hd tl ih =>
      simp only [List.foldl_cons]
      by_cases h : hd ∈ acc
      · rw [if_pos h, ih]
        constructor
        · rintro (hx | hx)
          · exact Or.inl hx
          · exact Or.inr (List.mem_cons_of_mem hd hx)
        · rintro (hx | hx)
          · exact Or.inl hx
          · rcases List.mem_cons.mp hx with rfl | hx
            · exact Or.inl h
            · exact Or.inr hx
      · rw [if_neg h, ih]
        constructor
        · rintro (hx | hx)
          · rcases List.mem_append.mp hx with hx | hx
            · exact Or.inl hx
            · exact Or.inr (List.mem_cons.mpr (Or.inl (List.mem_singleton.mp hx)))
          · exact Or.inr (List.mem_cons_of_mem hd hx)
        · rintro (hx | hx)
          · exact Or.inl (List.mem_append.mpr (Or.inl hx))
          · rcases List.mem_cons.mp hx with rfl | hx
            · exact Or.inl (List.mem_append.mpr (Or.inr (List.mem_singleton.mpr rfl)))
            · exact Or.inr hx

theorem mem_dedupKeepFirst (x : String) (l : List String) :
    x ∈ dedupKeepFirst l ↔ x ∈ l := by
  rw [dedupKeepFirst, mem_dedup_foldl]
  simp

/-- C7 (amended): when the transactions carry pairwise distinct timestamps,
`calculate` returns the same summary, by-chain, by-token and annotated
transactions on any permutation of the input, and the `chains_queried`
metadata has the same members (its order still follows input order). -/
theorem c7_order_independence_distinct_timestamps
    (method : String) (prices : List (String × Rat))
    (txs1 txs2 : List Transaction)
    (hperm : List.Perm txs1 txs2)
    (hnodup : (txs1.map (fun tx => tx.timestamp)).Nodup) :
    (calculate method txs1 prices).summary = (calculate method txs2 prices).summary ∧
    (calculate method txs1 prices).by_chain = (calculate method txs2 prices).by_chain ∧
    (calculate method txs1 prices).by_token = (calculate method txs2 prices).by_token ∧
    (calculate method txs1 prices).transactions =
      (calculate method txs2 prices).transactions ∧
    ∀ c, c ∈ (calculate method txs1 prices).chains_queried ↔
      c ∈ (calculate method txs2 prices).chains_queried := by
  have hs := insertionSort_eq_of_perm_distinct txs1 txs2 hperm hnodup
  refine ⟨?_, ?_, ?_, ?_, ?_⟩
  · simp only [calculate, hs]
  · simp only [calculate, hs]
  · simp only [calculate, hs]
  · simp only [calculate, hs]
  · intro c
    simp only [calculate]
    rw [mem_dedupKeepFirst, mem_dedupKeepFirst]
    exact (hperm.map (fun tx => tx.chain)).mem_iff

/-- C7 (amended) witness: two distinct-timestamp transactions, swapped. -/
theorem c7_order_independence_distinct_timestamps_witness :
    (List.Perm [buyA, sellC] [sellC, buyA] ∧
      ([buyA, sellC].map (fun tx => tx.timestamp)).Nodup) ∧
    ((calculate "fifo" [buyA, sellC] []).summary =
        (calculate "fifo" [sellC, buyA] []).summary ∧
      (calculate "fifo" [buyA, sellC] []).by_chain =
        (calculate "fifo" [sellC, buyA] []).by_chain ∧
      (calculate "fifo" [buyA, sellC] []).by_token =
        (calculate "fifo" [sellC, buyA] []).by_token ∧
      (calculate "fifo" [buyA, sellC] []).transactions =
        (calculate "fifo" [sellC, buyA] []).transactions ∧
      ∀ c, c ∈ (calculate "fifo" [buyA, sellC] []).chains_queried ↔
        c ∈ (calculate "fifo" [sellC, buyA] []).chains_queried) := by
  have hperm : List.Perm [buyA, sellC] [sellC, buyA] := List.Perm.swap sellC buyA []
  have hnodup : ([buyA, sellC].map (fun tx => tx.timestamp)).Nodup := by
    simp [buyA, sellC]
  exact ⟨⟨hperm, hnodup⟩,
    c7_order_independence_distinct_timestamps "fifo" [] [buyA, sellC] [sellC, buyA]
      hperm hnodup⟩

end WalletTracker

namespace WalletTracker

/-! ## C9 (amended): the in-place mutation is limited to `realized_pnl_usd`
on disposal records -/

/-- A transaction with its `realized_pnl_usd` annotation erased. -/
def stripRealized (tx : Transaction) : Transaction :=
  { tx with realized_pnl_usd := none }

theorem processTransaction_snd_strip (method : String) (st : CalcState)
    (tx : Transaction) :
    stripRealized (processTransaction method st tx).2 = stripRealized tx := by
  cases h : tx.type <;> simp [processTransaction, h, stripRealized]

theorem processTransaction_snd_acq (method : String) (st : CalcState)
    (tx : Transaction)
    (h : tx.type = TxType.buy ∨ tx.type = TxType.transfer_in) :
    (processTransaction method st tx).2 = tx := by
  rcases h with h | h <;> simp [processTransaction, h]

/-- Correspondence between a labelled input transaction and the object the
caller sees after processing: same label, same fields apart from
`realized_pnl_usd`, and acquisitions entirely untouched. -/
def TxCorr (q q' : Nat × Transaction) : Prop :=
  q'.1 = q.1 ∧ stripRealized q'.2 = stripRealized q.2 ∧
    ((q.2.type = TxType.buy ∨ q.2.type = TxType.transfer_in) → q'.2 = q.2)

theorem processAllIdx_corr (method : String) (st : CalcState)
    (l : List (Nat × Transaction)) :
    List.Forall₂ TxCorr l (processAllIdx method st l).2 := by
  induction l generalizing st with
  | nil => exact List.Forall₂.nil
  | cons hd tl ih =>
      obtain ⟨i, tx⟩ := hd
      simp only [processAllIdx]
      exact List.Forall₂.cons
        ⟨rfl, processTransaction_snd_strip method st tx,
          fun h => processTransaction_snd_acq method st tx h⟩
        (ih _)

theorem forall₂_txCorr_map_fst (l l' : List (Nat × Transaction))
    (h : List.Forall₂ TxCorr l l') : l'.map Prod.fst = l.map Prod.fst := by
  induction h with
  | nil => rfl
  | cons hr _ ih => simp [ih, hr.1]

/-- C9 (amended): after `calculate` returns, the caller's array has the
same length, every record agrees with its pre-call value on every field
except `realized_pnl_usd`, and acquisition records (`buy` / `transfer_in`)
are entirely unchanged — the in-place mutation is exactly the
`realized_pnl_usd` write onto disposal records. -/
theorem c9_mutation_limited_to_realized_pnl (method : String)
    (txs : List Transaction) :
    (callerTxsAfter method txs).length = txs.length ∧
    ∀ i, i < txs.length →
      stripRealized ((callerTxsAfter method txs).getD i default) =
        stripRealized (txs.getD i default) ∧
      (((txs.getD i default).type = TxType.buy ∨
          (txs.getD i default).type = TxType.transfer_in) →
        (callerTxsAfter method txs).getD i default = txs.getD i default) := by
  set S := txs.enum.insertionSort (fun a b => a.2.timestamp ≤ b.2.timestamp) with hS
  set out := (processAllIdx method initState S).2 with hout
  have hcaller : callerTxsAfter method txs =
      (List.range txs.length).map
        (fun i => ((out.find? (fun p => p.1 == i)).map (fun p => p.2)).getD default) := rfl
  have hlen : (callerTxsAfter method txs).length = txs.length := by
    rw [hcaller]
    simp
  refine ⟨hlen, ?_⟩
  have hcorr := processAllIdx_corr method initState S
  have hfst : out.map Prod.fst = S.map Prod.fst :=
    forall₂_txCorr_map_fst S out hcorr
  have hSperm : List.Perm S txs.enum := List.perm_insertionSort _ _
  have hfstperm : List.Perm (out.map Prod.fst) (List.range txs.length) := by
    rw [hfst, ← List.enum_map_fst txs]
    exact hSperm.map _
  intro i hi
  have hmem : i ∈ out.map Prod.fst := hfstperm.mem_iff.mpr (List.mem_range.mpr hi)
  have hex : ∃ x ∈ out, (fun p => p.1 == i) x = true := by
    obtain ⟨q, hq, hq1⟩ := List.mem_map.mp hmem
    exact ⟨q, hq, by simp [hq1]⟩
  have hsome : (out.find? (fun p => p.1 == i)).isSome := List.find?_isSome.mpr hex
  obtain ⟨q, hq⟩ := Option.isSome_iff_exists.mp hsome
  have hqi : q.1 = i := by simpa using List.find?_some hq
  have hqmem : q ∈ out := List.mem_of_find?_eq_some hq
  obtain ⟨j, hj⟩ := List.mem_iff_get.mp hqmem
  have hjS : j.1 < S.length := by
    have hlen2 : S.length = out.length := hcorr.length_eq
    omega
  have hrel : TxCorr (S.get ⟨j.1, hjS⟩) (out.get j) :=
    (List.forall₂_iff_get.mp hcorr).2 j.1 hjS j.2
  rw [hj] at hrel
  set p0 := S.get ⟨j.1, hjS⟩ with hp0
  have hp0i : p0.1 = i := by rw [← hqi, hrel.1]
  have hp0mem : p0 ∈ txs.enum := hSperm.mem_iff.mp (List.get_mem S j.1 hjS)
  have hget? : txs.get? p0.1 = some p0.2 := List.mem_enum_iff_get?.mp hp0mem
  rw [hp0i] at hget?
  have htxsi : txs.getD i default = p0.2 := by
    rw [List.getD_eq_get? txs i default, hget?]
    rfl
  have hcall : (callerTxsAfter method txs).getD i default = q.2 := by
    rw [hcaller]
    have hilen : i < ((List.range txs.length).map
        (fun i => ((out.find? (fun p => p.1 == i)).map (fun p => p.2)).getD default)).length := by
      simpa using hi
    rw [List.getD_eq_getElem _ _ hilen]
    simp [List.getElem_map, List.getElem_range, hq]
  constructor
  · rw [hcall, htxsi]
    exact hrel.2.1
  · intro hacq
    rw [hcall, htxsi]
    rw [htxsi] at hacq
    exact hrel.2.2 hacq

/-- C9 (amended) witness on a one-element input. -/
theorem c9_mutation_limited_to_realized_pnl_witness :
    ((callerTxsAfter "fifo" [sellC]).length = [sellC].length) ∧
    (0 < [sellC].length) ∧
    (stripRealized ((callerTxsAfter "fifo" [sellC]).getD 0 default) =
      stripRealized ([sellC].getD 0 default)) :=
  ⟨(c9_mutation_limited_to_realized_pnl "fifo" [sellC]).1,
    by norm_num,
    ((c9_mutation_limited_to_realized_pnl "fifo" [sellC]).2 0 (by norm_num)).1⟩

end WalletTracker

namespace WalletTracker

/-! ## C10 — association lists modulo permutation -/

theorem alGet_cons_self {α : Type} (k : String) (v : α) (tl : List (String × α)) :
    alGet ((k, v) :: tl) k = some v := by
  simp [alGet]

theorem alGet_cons_ne {α : Type} (k' k : String) (v : α) (tl : List (String × α))
    (h : k' ≠ k) : alGet ((k', v) :: tl) k = alGet tl k := by
  simp [alGet, h]

theorem alSet_cons_self {α : Type} (k : String) (v' v : α) (tl : List (String × α)) :
    alSet ((k, v') :: tl) k v = (k, v) :: tl := by
  simp [alSet]

theorem alSet_cons_ne {α : Type} (k' k : String) (v' v : α) (tl : List (String × α))
    (h : k' ≠ k) : alSet ((k', v') :: tl) k v = (k', v') :: alSet tl k v := by
  simp [alSet, h]

/-- The keys of an association list are pairwise distinct (true of every
map the engine builds, since `alSet` never duplicates a key). -/
def keysNodup {α : Type} (m : List (String × α)) : Prop :=
  (m.map Prod.fst).Nodup

theorem keysNodup_nil {α : Type} : keysNodup ([] : List (String × α)) := by
  simp [keysNodup]

theorem alGet_eq_none_iff {α : Type} (m : List (String × α)) (k : String) :
    alGet m k = none ↔ k ∉ m.map Prod.fst := by
  induction m with
  | nil => simp [alGet]
  | cons hd tl ih =>
      obtain ⟨k', v⟩ := hd
      by_cases h : k' = k
      · subst h
        simp [alGet_cons_self]
      · rw [alGet_cons_ne k' k v tl h, ih]
        simp [Ne.symm h]

theorem keys_alSet_subset {α : Type} (tl : List (String × α)) (k : String) (v : α) :
    ∀ x, x ∈ (alSet tl k v).map Prod.fst → x ∈ tl.map Prod.fst ∨ x = k := by
  intro x hx
  induction tl with
  | nil =>
      simp [alSet] at hx
      exact Or.inr hx
  | cons hd tl ih =>
      obtain ⟨k2, v2⟩ := hd
      by_cases h2 : k2 = k
      · subst h2
        rw [alSet_cons_self] at hx
        simp only [List.map_cons, List.mem_cons] at hx ⊢
        rcases hx with hx | hx
        · exact Or.inr hx
        · exact Or.inl (Or.inr hx)
      · rw [alSet_cons_ne k2 k v2 v tl h2] at hx
        simp only [List.map_cons, List.mem_cons] at hx ⊢
        rcases hx with hx | hx
        · exact Or.inl (Or.inl hx)
        · rcases ih hx with h | h
          · exact Or.inl (Or.inr h)
          · exact Or.inr h

theorem keysNodup_alSet {α : Type} (m : List (String × α)) (k : String) (v : α)
    (h : keysNodup m) : keysNodup (alSet m k v) := by
  induction m with
  | nil => simp [alSet, keysNodup]
  | cons hd tl ih =>
      obtain ⟨k', v'⟩ := hd
      simp only [keysNodup, List.map_cons, List.nodup_cons] at h
      by_cases hk : k' = k
      · subst hk
        rw [alSet_cons_self]
        simpa [keysNodup] using h
      · rw [alSet_cons_ne k' k v' v tl hk]
        have htl := ih h.2
        simp only [keysNodup, List.map_cons, List.nodup_cons]
        refine ⟨?_, htl⟩
        intro hmem
        rcases keys_alSet_subset tl k v k' hmem with hx | hx
        · exact h.1 hx
        · exact hk hx

theorem alGet_of_perm {α : Type} (m m' : List (String × α))
    (hperm : List.Perm m m') (hnodup : keysNodup m) (k : String) :
    alGet m k = alGet m' k := by
  induction hperm with
  | nil => rfl
  | cons x _ ih =>
      obtain ⟨k', v⟩ := x
      simp only [keysNodup, List.map_cons, List.nodup_cons] at hnodup
      by_cases h : k' = k
      · subst h
        rw [alGet_cons_self, alGet_cons_self]
      · rw [alGet_cons_ne k' k v _ h, alGet_cons_ne k' k v _ h]
        exact ih hnodup.2
  | swap x y l =>
      obtain ⟨k1, v1⟩ := x
      obtain ⟨k2, v2⟩ := y
      simp only [keysNodup, List.map_cons, List.nodup_cons, List.mem_cons] at hnodup
      by_cases h1 : k1 = k
      · subst h1
        have h2 : k2 ≠ k1 := fun h => hnodup.1 (Or.inl h)
        rw [alGet_cons_ne k2 k1 v2 _ h2, alGet_cons_self, alGet_cons_self]
      · by_cases h2 : k2 = k
        · subst h2
          rw [alGet_cons_self, alGet_cons_ne k1 k2 v1 _ h1, alGet_cons_self]
        · rw [alGet_cons_ne k2 k v2 _ h2, alGet_cons_ne k1 k v1 _ h1,
            alGet_cons_ne k1 k v1 _ h1, alGet_cons_ne k2 k v2 _ h2]
  | trans p1 p2 ih1 ih2 =>
      rename_i l1 l2 l3
      have hnodup2 : keysNodup l2 := by
        have hm : List.Perm (l1.map Prod.fst) (l2.map Prod.fst) := p1.map _
        exact hm.nodup_iff.mp hnodup
      rw [ih1 hnodup, ih2 hnodup2]

theorem alSet_of_perm {α : Type} (m m' : List (String × α))
    (hperm : List.Perm m m') (hnodup : keysNodup m) (k : String) (v : α) :
    List.Perm (alSet m k v) (alSet m' k v) := by
  induction hperm with
  | nil => simp [alSet]
  | cons x _ ih =>
      obtain ⟨k', v'⟩ := x
      simp only [keysNodup, List.map_cons, List.nodup_cons] at hnodup
      by_cases h : k' = k
      · subst h
        rw [alSet_cons_self, alSet_cons_self]
        exact List.Perm.cons _ (by assumption)
      · rw [alSet_cons_ne k' k v' v _ h, alSet_cons_ne k' k v' v _ h]
        exact List.Perm.cons _ (ih hnodup.2)
  | swap x y l =>
      obtain ⟨k1, v1⟩ := x
      obtain ⟨k2, v2⟩ := y
      simp only [keysNodup, List.map_cons, List.nodup_cons, List.mem_cons] at hnodup
      by_cases h1 : k1 = k
      · subst h1
        have h2 : k2 ≠ k1 := fun h => hnodup.1 (Or.inl h)
        rw [alSet_cons_ne k2 k1 v2 v _ h2, alSet_cons_self, alSet_cons_self]
        exact List.Perm.swap _ _ _
      · by_cases h2 : k2 = k
        · subst h2
          rw [alSet_cons_self, alSet_cons_ne k1 k2 v1 v _ h1, alSet_cons_self]
          exact List.Perm.swap _ _ _
        · rw [alSet_cons_ne k2 k v2 v _ h2, alSet_cons_ne k1 k v1 v _ h1,
            alSet_cons_ne k1 k v1 v _ h1, alSet_cons_ne k2 k v2 v _ h2]
          exact List.Perm.swap _ _ _
  | trans p1 p2 ih1 ih2 =>
      rename_i l1 l2 l3
      have hnodup2 : keysNodup l2 := by
        have hm : List.Perm (l1.map Prod.fst) (l2.map Prod.fst) := p1.map _
        exact hm.nodup_iff.mp hnodup
      exact (ih1 hnodup).trans (ih2 hnodup2)

theorem alSet_of_get_none {α : Type} (m : List (String × α)) (k : String) (v : α)
    (h : alGet m k = none) : alSet m k v = m ++ [(k, v)] := by
  induction m with
  | nil => simp [alSet]
  | cons hd tl ih =>
      obtain ⟨k', v'⟩ := hd
      by_cases hk : k' = k
      · subst hk
        rw [alGet_cons_self] at h
        cases h
      · rw [alGet_cons_ne k' k v' tl hk] at h
        rw [alSet_cons_ne k' k v' v tl hk, ih h]
        rfl

theorem mem_iff_alGet {α : Type} (m : List (String × α)) (k : String) (v : α)
    (hnodup : keysNodup m) : (k, v) ∈ m ↔ alGet m k = some v := by
  induction m with
  | nil => simp [alGet]
  | cons hd tl ih =>
      obtain ⟨k', v'⟩ := hd
      simp only [keysNodup, List.map_cons, List.nodup_cons] at hnodup
      by_cases h : k' = k
      · subst h
        rw [alGet_cons_self]
        simp only [List.mem_cons, Option.some.injEq]
        constructor
        · rintro (heq | hmem)
          · injection heq with h1 h2
            exact h2.symm
          · exact absurd (by simpa using List.mem_map_of_mem Prod.fst hmem) hnodup.1
        · intro heq
          subst heq
          exact Or.inl rfl
      · rw [alGet_cons_ne k' k v' tl h]
        simp only [List.mem_cons]
        rw [← ih hnodup.2]
        constructor
        · rintro (heq | hmem)
          · injection heq with h1 h2
            exact absurd h1.symm h
          · exact hmem
        · exact Or.inr

end WalletTracker

namespace WalletTracker

/-! ## C10 — a zero-quantity lot inserted into a ledger is invisible -/

/-- `l'` is `l` with at most one zero-quantity lot inserted. -/
def ZIns (l l' : List Position) : Prop :=
  l' = l ∨ ∃ u z v, z.quantity = 0 ∧ l = u ++ v ∧ l' = u ++ z :: v

theorem ZIns.refl (l : List Position) : ZIns l l := Or.inl rfl

theorem ZIns.sums {l l' : List Position} (h : ZIns l l') :
    sumQty l' = sumQty l ∧ sumValue l' = sumValue l := by
  rcases h with rfl | ⟨u, z, v, hz, rfl, rfl⟩
  · exact ⟨rfl, rfl⟩
  · constructor
    · simp [sumQty_eq_sum, hz]
    · simp [sumValue_eq_sum, hz]

theorem ZIns.append {l l' : List Position} (p : Position) (h : ZIns l l') :
    ZIns (l ++ [p]) (l' ++ [p]) := by
  rcases h with rfl | ⟨u, z, v, hz, rfl, rfl⟩
  · exact Or.inl rfl
  · exact Or.inr ⟨u, z, v ++ [p], hz, by simp, by simp⟩

theorem consume_nonpos (L : List (Nat × Position)) (rem : Rat) (h : ¬0 < rem) :
    consume L rem = (0, []) := by
  cases L with
  | nil => rfl
  | cons hd tl =>
      obtain ⟨i, p⟩ := hd
      simp [consume, h]

theorem lookupAmt_nil (i : Nat) : lookupAmt [] i = 0 := rfl

theorem lookupAmt_cons_self (i : Nat) (t c : Rat) (tl : List (Nat × Rat × Rat)) :
    lookupAmt ((i, t, c) :: tl) i = t := by
  simp [lookupAmt]

theorem lookupAmt_cons_ne (j i : Nat) (t c : Rat) (tl : List (Nat × Rat × Rat))
    (h : j ≠ i) : lookupAmt ((j, t, c) :: tl) i = lookupAmt tl i := by
  have hb : (j == i) = false := beq_eq_false_iff_ne.mpr h
  simp [lookupAmt, List.find?, hb]

theorem consume_cons_pos (i : Nat) (p : Position) (tl : List (Nat × Position))
    (rem : Rat) (h : 0 < rem) :
    consume ((i, p) :: tl) rem =
      (min p.quantity rem * p.price_usd +
          (consume tl (rem - min p.quantity rem)).1,
        (i, min p.quantity rem, p.price_usd) ::
          (consume tl (rem - min p.quantity rem)).2) := by
  simp [consume, h]

/-- Inserting one zero-quantity labelled lot anywhere in the loop's input
leaves the accumulated cost basis and every other label's consumed amount
unchanged, and the inserted label consumes nothing. -/
theorem consume_insert_zero (L1 L2 : List (Nat × Position)) (j : Nat)
    (z : Position) (hz : z.quantity = 0) (rem : Rat)
    (hj : ∀ ip ∈ L1, ip.1 ≠ j) :
    (consume (L1 ++ (j, z) :: L2) rem).1 = (consume (L1 ++ L2) rem).1 ∧
    (∀ i, i ≠ j → lookupAmt (consume (L1 ++ (j, z) :: L2) rem).2 i =
      lookupAmt (consume (L1 ++ L2) rem).2 i) ∧
    lookupAmt (consume (L1 ++ (j, z) :: L2) rem).2 j = 0 := by
  induction L1 generalizing rem with
  | nil =>
      by_cases hrem : 0 < rem
      · have hmin : min z.quantity rem = 0 := by
          rw [hz]
          exact min_eq_left (le_of_lt hrem)
        simp only [List.nil_append, consume, if_pos hrem, hmin]
        refine ⟨by ring, ?_, ?_⟩
        · intro i hij
          rw [show rem - 0 = rem from by ring]
          exact lookupAmt_cons_ne j i 0 z.price_usd _ (Ne.symm hij)
        · exact lookupAmt_cons_self j 0 z.price_usd _
      · rw [consume_nonpos _ rem hrem, consume_nonpos _ rem hrem]
        exact ⟨rfl, fun i _ => rfl, rfl⟩
  | cons hd tl ih =>
      obtain ⟨i0, p0⟩ := hd
      have hi0 : i0 ≠ j := hj (i0, p0) (List.mem_cons_self _ _)
      have hjtl : ∀ ip ∈ tl, ip.1 ≠ j :=
        fun ip hip => hj ip (List.mem_cons_of_mem _ hip)
      by_cases hrem : 0 < rem
      · rw [List.cons_append, List.cons_append,
          consume_cons_pos i0 p0 (tl ++ (j, z) :: L2) rem hrem,
          consume_cons_pos i0 p0 (tl ++ L2) rem hrem]
        obtain ⟨ih1, ih2, ih3⟩ := ih (rem - min p0.quantity rem) hjtl
        dsimp only
        refine ⟨by rw [ih1], ?_, ?_⟩
        · intro i hij
          by_cases hi : i0 = i
          · subst hi
            rw [lookupAmt_cons_self, lookupAmt_cons_self]
          · rw [lookupAmt_cons_ne i0 i _ _ _ hi, lookupAmt_cons_ne i0 i _ _ _ hi]
            exact ih2 i hij
        · rw [lookupAmt_cons_ne i0 j _ _ _ hi0]
          exact ih3
      · rw [consume_nonpos _ rem hrem, consume_nonpos _ rem hrem]
        exact ⟨rfl, fun i _ => rfl, rfl⟩

/-- Relabelling the loop's input does not change the accumulated basis, and
relabels the selections pointwise. -/
theorem consume_map_ids (g : Nat → Nat) (L : List (Nat × Position)) (rem : Rat) :
    consume (L.map (fun ip => (g ip.1, ip.2))) rem =
      ((consume L rem).1, (consume L rem).2.map (fun s => (g s.1, s.2))) := by
  induction L generalizing rem with
  | nil => simp [consume]
  | cons hd tl ih =>
      obtain ⟨i, p⟩ := hd
      by_cases hrem : 0 < rem
      · simp [consume, hrem, ih]
      · simp [consume, hrem]

theorem lookupAmt_map_inj (g : Nat → Nat) (hg : Function.Injective g)
    (sel : List (Nat × Rat × Rat)) (i : Nat) :
    lookupAmt (sel.map (fun s => (g s.1, s.2))) (g i) = lookupAmt sel i := by
  induction sel with
  | nil => rfl
  | cons hd tl ih =>
      obtain ⟨i0, t, c⟩ := hd
      by_cases h : i0 = i
      · subst h
        rw [List.map_cons]
        rw [lookupAmt_cons_self, lookupAmt_cons_self]
      · rw [List.map_cons]
        rw [lookupAmt_cons_ne _ _ _ _ _ (fun hc => h (hg hc)),
          lookupAmt_cons_ne _ _ _ _ _ h]
        exact ih

/-- A label absent from the selections consumes nothing. -/
theorem lookupAmt_not_mem (sel : List (Nat × Rat × Rat)) (i : Nat)
    (h : ∀ s ∈ sel, s.1 ≠ i) : lookupAmt sel i = 0 := by
  induction sel with
  | nil => rfl
  | cons hd tl ih =>
      obtain ⟨i0, t, c⟩ := hd
      rw [lookupAmt_cons_ne i0 i t c tl (h (i0, t, c) (List.mem_cons_self _ _))]
      exact ih (fun s hs => h s (List.mem_cons_of_mem _ hs))

theorem consume_fst_of_map_snd_eq (L M : List (Nat × Position))
    (h : L.map Prod.snd = M.map Prod.snd) :
    ∀ rem, (consume L rem).1 = (consume M rem).1 := by
  induction L generalizing M with
  | nil =>
      cases M with
      | nil => intro rem; rfl
      | cons hd tl => simp at h
  | cons hd tl ih =>
      cases M with
      | nil => simp at h
      | cons hd2 tl2 =>
          obtain ⟨i, p⟩ := hd
          obtain ⟨i2, p2⟩ := hd2
          simp only [List.map_cons, List.cons.injEq] at h
          intro rem
          by_cases hrem : 0 < rem
          · simp only [consume, if_pos hrem, h.1]
            rw [ih tl2 h.2 (rem - min p2.quantity rem)]
          · rw [consume_nonpos _ rem hrem, consume_nonpos _ rem hrem]

theorem enumFrom_succ_shift {α : Type} (l : List α) (n : Nat) :
    l.enumFrom (n + 1) = (l.enumFrom n).map (fun ip => (ip.1 + 1, ip.2)) := by
  induction l generalizing n with
  | nil => rfl
  | cons hd tl ih =>
      rw [List.enumFrom_cons, List.enumFrom_cons, List.map_cons, ih (n + 1)]

theorem mem_enumFrom_fst_lt {α : Type} (l : List α) (n : Nat) :
    ∀ ip ∈ l.enumFrom n, n ≤ ip.1 ∧ ip.1 < n + l.length := by
  induction l generalizing n with
  | nil => intro ip hip; cases hip
  | cons hd tl ih =>
      intro ip hip
      rw [List.enumFrom_cons] at hip
      rcases List.mem_cons.mp hip with rfl | hip
      · simp
      · obtain ⟨h1, h2⟩ := ih (n + 1) ip hip
        constructor
        · omega
        · simp only [List.length_cons]
          omega

end WalletTracker

namespace WalletTracker

/-! ## C10 — inserting one element into a stable insertion sort -/

section SortInsert

variable {α β : Type} (r : α → α → Prop) [DecidableRel r]

theorem orderedInsert_decomp (a : α) (S : List α) :
    ∃ u' v', S = u' ++ v' ∧ List.orderedInsert r a S = u' ++ a :: v' := by
  induction S with
  | nil => exact ⟨[], [], rfl, rfl⟩
  | cons b w ih =>
      by_cases h : r a b
      · exact ⟨[], b :: w, rfl, by simp [List.orderedInsert, h]⟩
      · obtain ⟨u', v', h1, h2⟩ := ih
        exact ⟨b :: u', v', by simp [h1], by simp [List.orderedInsert, h, h2]⟩

theorem orderedInsert_append_ins [IsTrans α r] (a t0 : α) (u v : List α)
    (hsorted : (u ++ t0 :: v).Sorted r) :
    ∃ u' v', List.orderedInsert r a (u ++ v) = u' ++ v' ∧
      List.orderedInsert r a (u ++ t0 :: v) = u' ++ t0 :: v' := by
  induction u with
  | nil =>
      by_cases hr : r a t0
      · cases v with
        | nil => exact ⟨[a], [], rfl, by simp [List.orderedInsert, hr]⟩
        | cons b w =>
            have hrtb : r t0 b := by
              have := (List.sorted_cons.mp hsorted).1
              exact this b (List.mem_cons_self b w)
            have hrab : r a b := Trans.trans hr hrtb
            exact ⟨[a], b :: w, by simp [List.orderedInsert, hrab],
              by simp [List.orderedInsert, hr]⟩
      · refine ⟨[], List.orderedInsert r a v, rfl, ?_⟩
        simp [List.orderedInsert, hr]
  | cons b u2 ih =>
      have htl : (u2 ++ t0 :: v).Sorted r := (List.sorted_cons.mp hsorted).2
      by_cases hr : r a b
      · exact ⟨a :: b :: u2, v, by simp [List.orderedInsert, hr],
          by simp [List.orderedInsert, hr]⟩
      · obtain ⟨u', v', h1, h2⟩ := ih htl
        exact ⟨b :: u', v', by simp [List.orderedInsert, hr, h1],
          by simp [List.orderedInsert, hr, h2]⟩

theorem insertionSort_insert [IsTotal α r] [IsTrans α r] (t0 : α) (u v : List α) :
    ∃ u' v', List.insertionSort r (u ++ v) = u' ++ v' ∧
      List.insertionSort r (u ++ t0 :: v) = u' ++ t0 :: v' := by
  induction u with
  | nil =>
      obtain ⟨u', v', h1, h2⟩ := orderedInsert_decomp r t0 (List.insertionSort r v)
      exact ⟨u', v', h1 ▸ rfl, by simp [List.insertionSort, h2]⟩
  | cons b u2 ih =>
      obtain ⟨u', v', h1, h2⟩ := ih
      have hsorted : (u' ++ t0 :: v').Sorted r := by
        rw [← h2]
        exact List.sorted_insertionSort r _
      obtain ⟨u'', v'', h3, h4⟩ := orderedInsert_append_ins r b t0 u' v' hsorted
      refine ⟨u'', v'', ?_, ?_⟩
      · rw [List.cons_append, List.insertionSort, h1]
        exact h3
      · rw [List.cons_append, List.insertionSort, h2]
        exact h4

theorem orderedInsert_map (f : α → β) (rb : β → β → Prop) [DecidableRel rb]
    (hf : ∀ x y, r x y ↔ rb (f x) (f y)) (a : α) (l : List α) :
    List.orderedInsert rb (f a) (l.map f) = (List.orderedInsert r a l).map f := by
  induction l with
  | nil => rfl
  | cons b w ih =>
      by_cases h : r a b
      · simp [List.orderedInsert, h, (hf a b).mp h]
      · have hb : ¬rb (f a) (f b) := fun hc => h ((hf a b).mpr hc)
        simp [List.orderedInsert, h, hb, ih]

theorem insertionSort_map (f : α → β) (rb : β → β → Prop) [DecidableRel rb]
    (hf : ∀ x y, r x y ↔ rb (f x) (f y)) (l : List α) :
    List.insertionSort rb (l.map f) = (List.insertionSort r l).map f := by
  induction l with
  | nil => rfl
  | cons b w ih =>
      simp only [List.map_cons, List.insertionSort, ih]
      exact orderedInsert_map r f rb hf b _

end SortInsert

end WalletTracker

namespace WalletTracker

/-! ## C10 — `removePosition` ignores an inserted zero-quantity lot -/

/-- Label shift: labels of lots after the insertion point move up by one. -/
def idShift (n x : Nat) : Nat := if x < n then x else x + 1

theorem idShift_injective (n : Nat) : Function.Injective (idShift n) := by
  intro a b h
  unfold idShift at h
  by_cases ha : a < n <;> by_cases hb : b < n <;> simp [ha, hb] at h <;> omega

theorem idShift_ne (n x : Nat) : idShift n x ≠ n := by
  unfold idShift
  by_cases h : x < n <;> simp [h] <;> omega

theorem enum_insert_decomp (u v : List Position) (z : Position) :
    (u ++ z :: v).enum = u.enum ++ (u.length, z) :: v.enumFrom (u.length + 1) := by
  rw [show u ++ z :: v = u ++ (z :: v) from rfl, List.enum_append,
    List.enumFrom_cons]

theorem enum_append_decomp (u v : List Position) :
    (u ++ v).enum = u.enum ++ v.enumFrom u.length :=
  List.enum_append u v

theorem enum_map_idShift (u v : List Position) :
    ((u ++ v).enum).map (fun ip => (idShift u.length ip.1, ip.2)) =
      u.enum ++ v.enumFrom (u.length + 1) := by
  rw [enum_append_decomp, List.map_append]
  congr 1
  · conv_rhs => rw [← List.map_id u.enum]
    apply List.map_congr_left
    intro ip hip
    have hlt : ip.1 < u.length := by
      have := mem_enumFrom_fst_lt u 0 ip (by simpa using hip)
      omega
    simp [idShift, hlt]
  · rw [enumFrom_succ_shift]
    apply List.map_congr_left
    intro ip hip
    have hge : u.length ≤ ip.1 := (mem_enumFrom_fst_lt v u.length ip hip).1
    simp [idShift, not_lt.mpr hge]

/-- Core of the insertion argument, shared by the `fifo`, `lifo` and
`default` branches: if the primed ordered view is the base ordered view
(relabelled by the shift) with `(u.length, z)` inserted, then the consumed
basis agrees and the written-back, filtered lot lists agree. -/
theorem consume_writeback_insert_zero (u v : List Position) (z : Position)
    (hz : z.quantity = 0) (q : Rat) (S S' U V : List (Nat × Position))
    (hUV : U ++ V = S.map (fun ip => (idShift u.length ip.1, ip.2)))
    (hS' : S' = U ++ (u.length, z) :: V) :
    (consume S' q).1 = (consume S q).1 ∧
    (((u ++ z :: v).enum.map (fun ip =>
        { ip.2 with quantity := ip.2.quantity - lookupAmt (consume S' q).2 ip.1 })).filter
      (fun p => 0 < p.quantity)) =
    (((u ++ v).enum.map (fun ip =>
        { ip.2 with quantity := ip.2.quantity - lookupAmt (consume S q).2 ip.1 })).filter
      (fun p => 0 < p.quantity)) := by
  set n := u.length with hn
  have hjU : ∀ ip ∈ U, ip.1 ≠ n := by
    intro ip hip
    have : ip ∈ S.map (fun ip => (idShift n ip.1, ip.2)) := by
      rw [← hUV]
      exact List.mem_append.mpr (Or.inl hip)
    obtain ⟨jp, _, rfl⟩ := List.mem_map.mp this
    exact idShift_ne n jp.1
  obtain ⟨hcb, hlook, hlookn⟩ := consume_insert_zero U V n z hz q hjU
  rw [← hS'] at hcb hlook hlookn
  have hmap := consume_map_ids (idShift n) S q
  have hUVc : consume (U ++ V) q =
      ((consume S q).1, (consume S q).2.map (fun s => (idShift n s.1, s.2))) := by
    rw [hUV]
    exact hmap
  constructor
  · rw [hcb, hUVc]
  · rw [enum_insert_decomp, enum_append_decomp]
    rw [List.map_append, List.map_cons, List.map_append]
    rw [List.filter_append, List.filter_cons, List.filter_append]
    have hzq : z.quantity - lookupAmt (consume S' q).2 n = 0 := by
      rw [hz, hlookn]
      ring
    have hzdrop : ¬(0 < z.quantity - lookupAmt (consume S' q).2 n) := by
      rw [hzq]
      exact lt_irrefl 0
    rw [if_neg (by simpa using hzdrop)]
    congr 1
    · -- the `u` part: labels below `n` look up the same amounts
      congr 1
      apply List.map_congr_left
      intro ip hip
      have hlt : ip.1 < n := by
        have := mem_enumFrom_fst_lt u 0 ip (by simpa using hip)
        omega
      have hne : ip.1 ≠ n := Nat.ne_of_lt hlt
      have hid : idShift n ip.1 = ip.1 := by simp [idShift, hlt]
      have h1 := hlook ip.1 hne
      rw [hUVc] at h1
      have h2 : lookupAmt ((consume S q).2.map (fun s => (idShift n s.1, s.2))) ip.1 =
          lookupAmt (consume S q).2 ip.1 := by
        conv_lhs => rw [← hid]
        exact lookupAmt_map_inj (idShift n) (idShift_injective n) _ ip.1
      rw [h1, h2]
    · -- the `v` part: labels shift by one
      rw [enumFrom_succ_shift v n, List.map_map]
      congr 1
      apply List.map_congr_left
      intro ip hip
      have hge : n ≤ ip.1 := (mem_enumFrom_fst_lt v n ip hip).1
      have hne : ip.1 + 1 ≠ n := by omega
      have hid : idShift n ip.1 = ip.1 + 1 := by simp [idShift, not_lt.mpr hge]
      have h1 := hlook (ip.1 + 1) hne
      rw [hUVc] at h1
      have h2 : lookupAmt ((consume S q).2.map (fun s => (idShift n s.1, s.2))) (ip.1 + 1) =
          lookupAmt (consume S q).2 ip.1 := by
        conv_lhs => rw [← hid]
        exact lookupAmt_map_inj (idShift n) (idShift_injective n) _ ip.1
      simp only [Function.comp]
      rw [h1, h2]

end WalletTracker

namespace WalletTracker

theorem map_snd_enumFrom {α : Type} (l : List α) (n : Nat) :
    (l.enumFrom n).map Prod.snd = l := by
  induction l generalizing n with
  | nil => rfl
  | cons hd tl ih => rw [List.enumFrom_cons, List.map_cons, ih (n + 1)]

theorem removePosition_insert_zero (method : String) (u v : List Position)
    (z : Position) (hz : z.quantity = 0) (txQty txPrice : Rat) :
    (removePosition method (u ++ z :: v) txQty txPrice).costBasis =
      (removePosition method (u ++ v) txQty txPrice).costBasis ∧
    (removePosition method (u ++ z :: v) txQty txPrice).newLots =
      (removePosition method (u ++ v) txQty txPrice).newLots := by
  by_cases hf : method = "fifo"
  · subst hf
    haveI : IsTotal (Nat × Position) (fun a b => a.2.timestamp ≤ b.2.timestamp) :=
      ⟨fun a b => le_total _ _⟩
    haveI : IsTrans (Nat × Position) (fun a b => a.2.timestamp ≤ b.2.timestamp) :=
      ⟨fun a b c hab hbc => le_trans hab hbc⟩
    simp only [removePosition, String.reduceEq, reduceIte]
    obtain ⟨U, V, h1, h2⟩ := insertionSort_insert
      (fun (a b : Nat × Position) => a.2.timestamp ≤ b.2.timestamp)
      (u.length, z) u.enum (v.enumFrom (u.length + 1))
    have hmap := insertionSort_map
      (fun (a b : Nat × Position) => a.2.timestamp ≤ b.2.timestamp)
      (fun ip => (idShift u.length ip.1, ip.2))
      (fun (a b : Nat × Position) => a.2.timestamp ≤ b.2.timestamp)
      (fun x y => Iff.rfl) ((u ++ v).enum)
    have hUV : U ++ V = (List.insertionSort
        (fun (a b : Nat × Position) => a.2.timestamp ≤ b.2.timestamp)
        ((u ++ v).enum)).map (fun ip => (idShift u.length ip.1, ip.2)) := by
      rw [← hmap, enum_map_idShift, h1]
    have hS' : List.insertionSort
        (fun (a b : Nat × Position) => a.2.timestamp ≤ b.2.timestamp)
        ((u ++ z :: v).enum) = U ++ (u.length, z) :: V := by
      rw [enum_insert_decomp]
      exact h2
    exact consume_writeback_insert_zero u v z hz txQty _ _ U V hUV hS'
  · by_cases hl : method = "lifo"
    · subst hl
      haveI : IsTotal (Nat × Position) (fun a b => b.2.timestamp ≤ a.2.timestamp) :=
        ⟨fun a b => (le_total a.2.timestamp b.2.timestamp).symm⟩
      haveI : IsTrans (Nat × Position) (fun a b => b.2.timestamp ≤ a.2.timestamp) :=
        ⟨fun a b c hab hbc => le_trans hbc hab⟩
      simp only [removePosition, String.reduceEq, reduceIte]
      obtain ⟨U, V, h1, h2⟩ := insertionSort_insert
        (fun (a b : Nat × Position) => b.2.timestamp ≤ a.2.timestamp)
        (u.length, z) u.enum (v.enumFrom (u.length + 1))
      have hmap := insertionSort_map
        (fun (a b : Nat × Position) => b.2.timestamp ≤ a.2.timestamp)
        (fun ip => (idShift u.length ip.1, ip.2))
        (fun (a b : Nat × Position) => b.2.timestamp ≤ a.2.timestamp)
        (fun x y => Iff.rfl) ((u ++ v).enum)
      have hUV : U ++ V = (List.insertionSort
          (fun (a b : Nat × Position) => b.2.timestamp ≤ a.2.timestamp)
          ((u ++ v).enum)).map (fun ip => (idShift u.length ip.1, ip.2)) := by
        rw [← hmap, enum_map_idShift, h1]
      have hS' : List.insertionSort
          (fun (a b : Nat × Position) => b.2.timestamp ≤ a.2.timestamp)
          ((u ++ z :: v).enum) = U ++ (u.length, z) :: V := by
        rw [enum_insert_decomp]
        exact h2
      exact consume_writeback_insert_zero u v z hz txQty _ _ U V hUV hS'
    · by_cases ha : method = "avg"
      · subst ha
        simp only [removePosition, String.reduceEq, reduceIte]
        have hzi : ZIns (u ++ v) (u ++ z :: v) :=
          Or.inr ⟨u, z, v, hz, rfl, rfl⟩
        have hA : sumValue (u ++ z :: v) / sumQty (u ++ z :: v) =
            sumValue (u ++ v) / sumQty (u ++ v) := by
          rw [hzi.sums.1, hzi.sums.2]
        rw [hA]
        constructor
        · -- the consumed basis only depends on the quantity/price projections
          set A := sumValue (u ++ v) / sumQty (u ++ v) with hAdef
          have hsnd1 : (((u ++ z :: v).enum).map
              (fun ip => (ip.1, { ip.2 with price_usd := A }))).map Prod.snd =
              ((u.map (fun p : Position => { p with price_usd := A }) ++
                { z with price_usd := A } ::
                  v.map (fun p : Position => { p with price_usd := A })).enum).map Prod.snd := by
            rw [List.map_map, map_snd_enum]
            have h0 : ((u ++ z :: v).enum).map
                (Prod.snd ∘ fun ip => (ip.1, { ip.2 with price_usd := A })) =
                (((u ++ z :: v).enum).map Prod.snd).map
                  (fun p : Position => { p with price_usd := A }) := by
              rw [List.map_map]
              rfl
            rw [h0, map_snd_enum, List.map_append, List.map_cons]
          have hstep1 := consume_fst_of_map_snd_eq _ _ hsnd1 txQty
          have hdec : (u.map (fun p : Position => { p with price_usd := A }) ++
              { z with price_usd := A } ::
                v.map (fun p : Position => { p with price_usd := A })).enum =
              (u.map (fun p : Position => { p with price_usd := A })).enum ++
                (u.length, { z with price_usd := A }) ::
                  (v.map (fun p : Position => { p with price_usd := A })).enumFrom (u.length + 1) := by
            have hd := enum_insert_decomp (u.map (fun p : Position => { p with price_usd := A }))
              (v.map (fun p : Position => { p with price_usd := A })) { z with price_usd := A }
            rwa [List.length_map] at hd
          have hjU : ∀ ip ∈ (u.map (fun p : Position => { p with price_usd := A })).enum,
              ip.1 ≠ u.length := by
            intro ip hip
            have hb := mem_enumFrom_fst_lt (u.map (fun p : Position => { p with price_usd := A }))
              0 ip (by simpa using hip)
            rw [List.length_map] at hb
            omega
          have hzq : ({ z with price_usd := A } : Position).quantity = 0 := hz
          obtain ⟨hcb, _, _⟩ := consume_insert_zero
            ((u.map (fun p : Position => { p with price_usd := A })).enum)
            ((v.map (fun p : Position => { p with price_usd := A })).enumFrom (u.length + 1))
            u.length { z with price_usd := A } hzq txQty hjU
          have hsnd2 : (((u.map (fun p : Position => { p with price_usd := A })).enum ++
              (v.map (fun p : Position => { p with price_usd := A })).enumFrom (u.length + 1))).map
              Prod.snd = (((u ++ v).enum).map
              (fun ip => (ip.1, { ip.2 with price_usd := A }))).map Prod.snd := by
            rw [List.map_append, map_snd_enum, map_snd_enumFrom]
            rw [List.map_map]
            have h0 : ((u ++ v).enum).map
                (Prod.snd ∘ fun ip => (ip.1, { ip.2 with price_usd := A })) =
                (((u ++ v).enum).map Prod.snd).map
                  (fun p : Position => { p with price_usd := A }) := by
              rw [List.map_map]
              rfl
            rw [h0, map_snd_enum, List.map_append]
          have hstep2 := consume_fst_of_map_snd_eq _ _ hsnd2 txQty
          rw [hstep1, hdec, hcb, hstep2]
        · -- under avg the stored lots come back unchanged; the filter drops
          -- the inserted zero-quantity lot
          simp [List.filter_append, List.filter_cons, hz]
      · simp only [removePosition, if_neg hf, if_neg hl, if_neg ha]
        have hUV : u.enum ++ v.enumFrom (u.length + 1) =
            ((u ++ v).enum).map (fun ip => (idShift u.length ip.1, ip.2)) :=
          (enum_map_idShift u v).symm
        have hS' : (u ++ z :: v).enum =
            u.enum ++ (u.length, z) :: v.enumFrom (u.length + 1) :=
          enum_insert_decomp u v z
        exact consume_writeback_insert_zero u v z hz txQty _ _ _ _ hUV hS'

end WalletTracker

namespace WalletTracker

/-! ## C10 — state relation between runs with and without the zero buy -/

/-- The value `updateTokenPnL` stores for `key`. -/
def tokVal (st : CalcState) (key c sym addr : String) (r : Rat) : TokenPnL :=
  let existing := (alGet st.tokenPnL key).getD (defaultTokenPnL sym addr c)
  { existing with
    realized_pnl_usd := existing.realized_pnl_usd + r,
    quantity_held := sumQty (posOf st key),
    average_buy_price_usd :=
      if 0 < sumQty (posOf st key) then
        sumValue (posOf st key) / sumQty (posOf st key) else 0 }

theorem updateTokenPnL_tokenPnL (st : CalcState) (key c sym addr : String)
    (r : Rat) :
    (updateTokenPnL st key c sym addr r).tokenPnL =
      alSet st.tokenPnL key (tokVal st key c sym addr r) := rfl

/-- The token maps of the two runs agree up to one extra all-zero entry at
the zero buy's key. -/
def TokRel (k : String) (zTok : TokenPnL)
    (tl tl' : List (String × TokenPnL)) : Prop :=
  List.Perm tl' tl ∨ (alGet tl k = none ∧ List.Perm tl' ((k, zTok) :: tl))

/-- State relation between the run without the zero acquisition (left) and
the run with it (right). -/
def StRel (k : String) (zTok : TokenPnL) (s s' : CalcState) : Prop :=
  (∀ key, key ≠ k → posOf s' key = posOf s key) ∧
  ZIns (posOf s k) (posOf s' k) ∧
  TokRel k zTok s.tokenPnL s'.tokenPnL ∧
  keysNodup s.tokenPnL ∧ keysNodup s'.tokenPnL

theorem updateTokenPnL_rel (k : String) (zTok : TokenPnL)
    (s1 s1' : CalcState) (key c sym addr : String) (r : Rat)
    (hq : sumQty (posOf s1' key) = sumQty (posOf s1 key))
    (hv : sumValue (posOf s1' key) = sumValue (posOf s1 key))
    (htok : TokRel k zTok s1.tokenPnL s1'.tokenPnL)
    (hn : keysNodup s1.tokenPnL) (hn' : keysNodup s1'.tokenPnL)
    (hzdef : key = k → zTok = defaultTokenPnL sym addr c) :
    TokRel k zTok (updateTokenPnL s1 key c sym addr r).tokenPnL
      (updateTokenPnL s1' key c sym addr r).tokenPnL ∧
    keysNodup (updateTokenPnL s1 key c sym addr r).tokenPnL ∧
    keysNodup (updateTokenPnL s1' key c sym addr r).tokenPnL := by
  rw [updateTokenPnL_tokenPnL, updateTokenPnL_tokenPnL]
  refine ⟨?_, keysNodup_alSet _ _ _ hn, keysNodup_alSet _ _ _ hn'⟩
  rcases htok with hperm | ⟨hnone, hperm⟩
  · -- no extra entry: values agree, sets stay permutations
    have hget : alGet s1'.tokenPnL key = alGet s1.tokenPnL key :=
      alGet_of_perm s1'.tokenPnL s1.tokenPnL hperm hn' key
    have hval : tokVal s1' key c sym addr r = tokVal s1 key c sym addr r := by
      simp only [tokVal, hget, hq, hv]
    rw [hval]
    exact Or.inl (alSet_of_perm s1'.tokenPnL s1.tokenPnL hperm hn' key _)
  · by_cases hkey : key = k
    · -- the extra zero entry is overwritten with the same value the other
      -- run now creates: the maps collapse to permutations
      subst hkey
      have hget : alGet s1'.tokenPnL key = some zTok := by
        rw [alGet_of_perm s1'.tokenPnL _ hperm hn' key, alGet_cons_self]
      have hval : tokVal s1' key c sym addr r = tokVal s1 key c sym addr r := by
        simp only [tokVal, hget, hnone, hq, hv, Option.getD_some, Option.getD_none,
          hzdef rfl]
      rw [hval]
      set v := tokVal s1 key c sym addr r with hvdef
      have hs : alSet s1.tokenPnL key v = s1.tokenPnL ++ [(key, v)] :=
        alSet_of_get_none s1.tokenPnL key v hnone
      have hs' : List.Perm (alSet s1'.tokenPnL key v)
          ((key, v) :: s1.tokenPnL) := by
        have h1 := alSet_of_perm s1'.tokenPnL ((key, zTok) :: s1.tokenPnL)
          hperm hn' key v
        rwa [alSet_cons_self] at h1
      refine Or.inl ?_
      rw [hs]
      exact hs'.trans (List.perm_append_singleton (key, v) s1.tokenPnL).symm
    · -- a different key: the extra zero entry survives untouched
      have hkn : k ≠ key := Ne.symm hkey
      have hget : alGet s1'.tokenPnL key = alGet s1.tokenPnL key := by
        rw [alGet_of_perm s1'.tokenPnL _ hperm hn' key, alGet_cons_ne k key zTok _ hkn]
      have hval : tokVal s1' key c sym addr r = tokVal s1 key c sym addr r := by
        simp only [tokVal, hget, hq, hv]
      rw [hval]
      set v := tokVal s1 key c sym addr r with hvdef
      refine Or.inr ⟨?_, ?_⟩
      · rw [alGet_alSet_ne s1.tokenPnL key k v hkey]
        exact hnone
      · have h1 := alSet_of_perm s1'.tokenPnL ((k, zTok) :: s1.tokenPnL)
          hperm hn' key v
        rwa [alSet_cons_ne k key zTok v _ hkn] at h1

end WalletTracker

namespace WalletTracker

theorem removePosition_insert_zero_full (method : String) (u v : List Position)
    (z : Position) (hz : z.quantity = 0) (q p : Rat) :
    (removePosition method (u ++ z :: v) q p).realizedPnL =
      (removePosition method (u ++ v) q p).realizedPnL ∧
    (removePosition method (u ++ z :: v) q p).newLots =
      (removePosition method (u ++ v) q p).newLots := by
  obtain ⟨h1, h2⟩ := removePosition_insert_zero method u v z hz q p
  refine ⟨?_, h2⟩
  have e1 : (removePosition method (u ++ z :: v) q p).realizedPnL =
      q * p - (removePosition method (u ++ z :: v) q p).costBasis := rfl
  have e2 : (removePosition method (u ++ v) q p).realizedPnL =
      q * p - (removePosition method (u ++ v) q p).costBasis := rfl
  rw [e1, e2, h1]

theorem StRel_step (method : String) (c0 s0 a0 : String) (s s' : CalcState)
    (hrel : StRel (getTokenKey c0 s0 a0) (defaultTokenPnL s0 a0 c0) s s')
    (tx : Transaction)
    (hids : getTokenKey tx.chain tx.token_symbol tx.token_address =
        getTokenKey c0 s0 a0 →
      tx.chain = c0 ∧ tx.token_symbol = s0 ∧ tx.token_address = a0) :
    StRel (getTokenKey c0 s0 a0) (defaultTokenPnL s0 a0 c0)
      (processTransaction method s tx).1 (processTransaction method s' tx).1 := by
  obtain ⟨hpos, hzins, htok, hn, hn'⟩ := hrel
  set k := getTokenKey c0 s0 a0 with hkdef
  set key := getTokenKey tx.chain tx.token_symbol tx.token_address with hkeydef
  have hzdef : key = k → defaultTokenPnL s0 a0 c0 =
      defaultTokenPnL tx.token_symbol tx.token_address tx.chain := by
    intro hkeq
    obtain ⟨h1, h2, h3⟩ := hids hkeq
    rw [h1, h2, h3]
  cases htype : tx.type
  case buy | transfer_in =>
    simp only [processTransaction, htype, addPosition]
    rw [← hkeydef]
    set nl : Position := ⟨tx.quantity, tx.price_usd, tx.timestamp, tx.tx_hash⟩ with hnl
    set s1 : CalcState :=
      { s with positions := alSet s.positions key (posOf s key ++ [nl]) } with hs1
    set s1' : CalcState :=
      { s' with positions := alSet s'.positions key (posOf s' key ++ [nl]) } with hs1'
    have hpos1 : ∀ key', key' ≠ k → posOf s1' key' = posOf s1 key' := by
      intro key' hk'
      by_cases h2 : key = key'
      · subst h2
        rw [hs1, hs1', posOf_set_self, posOf_set_self, hpos key hk']
      · rw [hs1, hs1', posOf_set_ne s key key' _ h2, posOf_set_ne s' key key' _ h2]
        exact hpos key' hk'
    have hzins1 : ZIns (posOf s1 k) (posOf s1' k) := by
      by_cases hkk : key = k
      · rw [hs1, hs1', ← hkk, posOf_set_self, posOf_set_self, hkk]
        exact hzins.append nl
      · rw [hs1, hs1', posOf_set_ne s key k _ hkk, posOf_set_ne s' key k _ hkk]
        exact hzins
    have hq : sumQty (posOf s1' key) = sumQty (posOf s1 key) := by
      by_cases hkk : key = k
      · rw [hkk]
        exact hzins1.sums.1
      · rw [hpos1 key hkk]
    have hv : sumValue (posOf s1' key) = sumValue (posOf s1 key) := by
      by_cases hkk : key = k
      · rw [hkk]
        exact hzins1.sums.2
      · rw [hpos1 key hkk]
    have hrest := updateTokenPnL_rel k (defaultTokenPnL s0 a0 c0) s1 s1' key
      tx.chain tx.token_symbol tx.token_address 0 hq hv htok hn hn'
      (fun hkeq => hzdef hkeq)
    exact ⟨fun key' hk' => hpos1 key' hk', hzins1, hrest.1, hrest.2.1, hrest.2.2⟩
  case sell | transfer_out =>
    simp only [processTransaction, htype]
    rw [← hkeydef]
    by_cases hkk : key = k
    · rw [hkk]
      rcases hzins with heq | ⟨a, z, b, hzq, hleq, hleq'⟩
      · -- the two ledgers agree at the key: both runs dispose identically
        rw [heq]
        set d := removePosition method (posOf s k) tx.quantity tx.price_usd with hd
        set s1 : CalcState :=
          { s with positions := alSet s.positions k d.newLots } with hs1
        set s1' : CalcState :=
          { s' with positions := alSet s'.positions k d.newLots } with hs1'
        have hpos1 : ∀ key', key' ≠ k → posOf s1' key' = posOf s1 key' := by
          intro key' hk'
          rw [hs1, hs1', posOf_set_ne s k key' _ (Ne.symm hk'),
            posOf_set_ne s' k key' _ (Ne.symm hk')]
          exact hpos key' hk'
        have hzins1 : ZIns (posOf s1 k) (posOf s1' k) := by
          rw [hs1, hs1', posOf_set_self, posOf_set_self]
          exact ZIns.refl _
        have hrest := updateTokenPnL_rel k (defaultTokenPnL s0 a0 c0) s1 s1' k
          tx.chain tx.token_symbol tx.token_address d.realizedPnL
          (by rw [hs1, hs1', posOf_set_self, posOf_set_self])
          (by rw [hs1, hs1', posOf_set_self, posOf_set_self])
          htok hn hn' (fun _ => hzdef hkk)
        exact ⟨fun key' hk' => hpos1 key' hk', hzins1, hrest.1, hrest.2.1, hrest.2.2⟩
      · -- the primed ledger carries the zero lot: the disposal ignores it
        rw [hleq, hleq']
        obtain ⟨hreal, hlots⟩ := removePosition_insert_zero_full method a b z hzq
          tx.quantity tx.price_usd
        rw [hreal, hlots]
        set d := removePosition method (a ++ b) tx.quantity tx.price_usd with hd
        set s1 : CalcState :=
          { s with positions := alSet s.positions k d.newLots } with hs1
        set s1' : CalcState :=
          { s' with positions := alSet s'.positions k d.newLots } with hs1'
        have hpos1 : ∀ key', key' ≠ k → posOf s1' key' = posOf s1 key' := by
          intro key' hk'
          rw [hs1, hs1', posOf_set_ne s k key' _ (Ne.symm hk'),
            posOf_set_ne s' k key' _ (Ne.symm hk')]
          exact hpos key' hk'
        have hzins1 : ZIns (posOf s1 k) (posOf s1' k) := by
          rw [hs1, hs1', posOf_set_self, posOf_set_self]
          exact ZIns.refl _
        have hrest := updateTokenPnL_rel k (defaultTokenPnL s0 a0 c0) s1 s1' k
          tx.chain tx.token_symbol tx.token_address d.realizedPnL
          (by rw [hs1, hs1', posOf_set_self, posOf_set_self])
          (by rw [hs1, hs1', posOf_set_self, posOf_set_self])
          htok hn hn' (fun _ => hzdef hkk)
        exact ⟨fun key' hk' => hpos1 key' hk', hzins1, hrest.1, hrest.2.1, hrest.2.2⟩
    · -- a different key: both ledgers hold the same lots there
      have hsame : posOf s' key = posOf s key := hpos key hkk
      rw [hsame]
      set d := removePosition method (posOf s key) tx.quantity tx.price_usd with hd
      set s1 : CalcState :=
        { s with positions := alSet s.positions key d.newLots } with hs1
      set s1' : CalcState :=
        { s' with positions := alSet s'.positions key d.newLots } with hs1'
      have hpos1 : ∀ key', key' ≠ k → posOf s1' key' = posOf s1 key' := by
        intro key' hk'
        by_cases h2 : key = key'
        · subst h2
          rw [hs1, hs1', posOf_set_self, posOf_set_self]
        · rw [hs1, hs1', posOf_set_ne s key key' _ h2, posOf_set_ne s' key key' _ h2]
          exact hpos key' hk'
      have hzins1 : ZIns (posOf s1 k) (posOf s1' k) := by
        rw [hs1, hs1', posOf_set_ne s key k _ hkk, posOf_set_ne s' key k _ hkk]
        exact hzins
      have hrest := updateTokenPnL_rel k (defaultTokenPnL s0 a0 c0) s1 s1' key
        tx.chain tx.token_symbol tx.token_address d.realizedPnL
        (by rw [hpos1 key hkk]) (by rw [hpos1 key hkk])
        htok hn hn' (fun hkeq => absurd hkeq hkk)
      exact ⟨fun key' hk' => hpos1 key' hk', hzins1, hrest.1, hrest.2.1, hrest.2.2⟩

end WalletTracker

namespace WalletTracker

theorem alSet_get_self {α : Type} (m : List (String × α)) (k : String) (v : α)
    (h : alGet m k = some v) : alSet m k v = m := by
  induction m with
  | nil => cases h
  | cons hd tl ih =>
      obtain ⟨k', v'⟩ := hd
      by_cases hk : k' = k
      · subst hk
        rw [alGet_cons_self] at h
        rw [alSet_cons_self]
        injection h with h
        rw [h]
      · rw [alGet_cons_ne k' k v' tl hk] at h
        rw [alSet_cons_ne k' k v' v tl hk, ih h]

/-! ## C10 — invariants of reachable engine states -/

/-- Invariant of every state the replay loop reaches: token-map keys are
distinct, keys without an entry hold no lots, and every stored entry's
holdings fields are the recomputation from the stored lots. -/
def Reach (st : CalcState) : Prop :=
  keysNodup st.tokenPnL ∧
  (∀ key, alGet st.tokenPnL key = none → posOf st key = []) ∧
  (∀ key e, alGet st.tokenPnL key = some e →
    e.quantity_held = sumQty (posOf st key) ∧
    e.average_buy_price_usd =
      (if 0 < sumQty (posOf st key) then
        sumValue (posOf st key) / sumQty (posOf st key) else 0))

theorem Reach_init : Reach initState := by
  refine ⟨keysNodup_nil, ?_, ?_⟩
  · intro key _
    rfl
  · intro key e h
    cases h

theorem Reach_update (st : CalcState) (key c sym addr : String) (r : Rat)
    (L : List Position) (h : Reach st) :
    Reach (updateTokenPnL
      { st with positions := alSet st.positions key L } key c sym addr r) := by
  obtain ⟨hn, hnone, hsome⟩ := h
  set st1 : CalcState := { st with positions := alSet st.positions key L } with hst1
  refine ⟨?_, ?_, ?_⟩
  · rw [updateTokenPnL_tokenPnL]
    exact keysNodup_alSet _ _ _ hn
  · intro key' hkey'
    rw [updateTokenPnL_tokenPnL] at hkey'
    by_cases hk : key = key'
    · subst hk
      rw [alGet_alSet_self] at hkey'
      cases hkey'
    · rw [alGet_alSet_ne st.tokenPnL key key' _ hk] at hkey'
      rw [posOf_updateTokenPnL, hst1, posOf_set_ne st key key' L hk]
      exact hnone key' hkey'
  · intro key' e hkey'
    rw [updateTokenPnL_tokenPnL] at hkey'
    by_cases hk : key = key'
    · subst hk
      rw [alGet_alSet_self] at hkey'
      injection hkey' with he
      rw [← he, posOf_updateTokenPnL]
      exact ⟨rfl, rfl⟩
    · rw [alGet_alSet_ne st.tokenPnL key key' _ hk] at hkey'
      rw [posOf_updateTokenPnL, hst1, posOf_set_ne st key key' L hk]
      exact hsome key' e hkey'

theorem Reach_step (method : String) (st : CalcState) (tx : Transaction)
    (h : Reach st) : Reach (processTransaction method st tx).1 := by
  cases htype : tx.type
  case buy | transfer_in =>
    simp only [processTransaction, htype, addPosition]
    exact Reach_update st _ tx.chain tx.token_symbol tx.token_address 0 _ h
  case sell | transfer_out =>
    simp only [processTransaction, htype]
    exact Reach_update st _ tx.chain tx.token_symbol tx.token_address _ _ h

theorem Reach_processAll (method : String) (l : List Transaction) (st : CalcState)
    (h : Reach st) : Reach (processAll method st l).1 := by
  induction l generalizing st with
  | nil => exact h
  | cons tx rest ih =>
      simp only [processAll]
      exact ih _ (Reach_step method st tx h)

theorem processAll_append_state (method : String) (l1 l2 : List Transaction)
    (st : CalcState) :
    (processAll method st (l1 ++ l2)).1 =
      (processAll method (processAll method st l1).1 l2).1 := by
  induction l1 generalizing st with
  | nil => rfl
  | cons tx rest ih =>
      simp only [List.cons_append, processAll]
      exact ih _

/-- Processing the zero-quantity acquisition sets up the state relation. -/
theorem StRel_t0 (method : String) (c0 s0 a0 : String) (t0 : Transaction)
    (ht0type : t0.type = TxType.buy ∨ t0.type = TxType.transfer_in)
    (ht0q : t0.quantity = 0)
    (hc : t0.chain = c0) (hs : t0.token_symbol = s0) (ha : t0.token_address = a0)
    (s : CalcState) (hreach : Reach s) :
    StRel (getTokenKey c0 s0 a0) (defaultTokenPnL s0 a0 c0) s
      (processTransaction method s t0).1 := by
  obtain ⟨hn, hnone, hsome⟩ := hreach
  set k := getTokenKey c0 s0 a0 with hkdef
  have hkey : getTokenKey t0.chain t0.token_symbol t0.token_address = k := by
    rw [hc, hs, ha]
  have hstep : (processTransaction method s t0).1 =
      updateTokenPnL
        { s with positions := alSet s.positions k (posOf s k ++
            [⟨t0.quantity, t0.price_usd, t0.timestamp, t0.tx_hash⟩]) }
        k t0.chain t0.token_symbol t0.token_address 0 := by
    rcases ht0type with ht | ht <;>
      simp only [processTransaction, ht, addPosition, hkey]
  rw [hstep]
  set z : Position := ⟨t0.quantity, t0.price_usd, t0.timestamp, t0.tx_hash⟩ with hzdef
  have hzq : z.quantity = 0 := ht0q
  set s1 : CalcState :=
    { s with positions := alSet s.positions k (posOf s k ++ [z]) } with hs1
  refine ⟨?_, ?_, ?_, hn, ?_⟩
  · intro key' hk'
    rw [posOf_updateTokenPnL, hs1, posOf_set_ne s k key' _ (Ne.symm hk')]
  · rw [posOf_updateTokenPnL, hs1, posOf_set_self]
    exact Or.inr ⟨posOf s k, z, [], hzq, by simp, rfl⟩
  · rw [updateTokenPnL_tokenPnL]
    have hsums : sumQty (posOf s1 k) = sumQty (posOf s k) ∧
        sumValue (posOf s1 k) = sumValue (posOf s k) := by
      rw [hs1, posOf_set_self]
      constructor
      · simp [sumQty_eq_sum, hzq, ht0q]
      · simp [sumValue_eq_sum, hzq, ht0q]
    cases hget : alGet s.tokenPnL k
    · -- fresh key: the new entry is the all-zero default entry
      have hval : tokVal s1 k t0.chain t0.token_symbol t0.token_address 0 =
          defaultTokenPnL s0 a0 c0 := by
        have hempty : posOf s k = [] := hnone k hget
        have hs1tok : s1.tokenPnL = s.tokenPnL := rfl
        have hlots : posOf s1 k = [z] := by
          rw [hs1, posOf_set_self, hempty, List.nil_append]
        simp only [tokVal, hs1tok, hget, Option.getD_none, hlots]
        rw [hc, hs, ha]
        simp [defaultTokenPnL, sumQty, hzq, ht0q]
      rw [hval, alSet_of_get_none s.tokenPnL k _ hget]
      exact Or.inr ⟨hget,
        List.perm_append_singleton (k, defaultTokenPnL s0 a0 c0) s.tokenPnL⟩
    · -- existing key: the recomputed entry equals the stored one
      rename_i e
      have hval : tokVal s1 k t0.chain t0.token_symbol t0.token_address 0 = e := by
        obtain ⟨hq, hav⟩ := hsome k e hget
        have hs1tok : s1.tokenPnL = s.tokenPnL := rfl
        simp only [tokVal, hs1tok, hget, Option.getD_some]
        rw [hsums.1, hsums.2, ← hav, ← hq, add_zero]
      rw [hval, alSet_get_self s.tokenPnL k e hget]
      exact Or.inl (List.Perm.refl _)
  · rw [updateTokenPnL_tokenPnL]
    exact keysNodup_alSet _ _ _ hn

theorem StRel_processAll (method : String) (c0 s0 a0 : String)
    (l : List Transaction)
    (hl : ∀ tx ∈ l, getTokenKey tx.chain tx.token_symbol tx.token_address =
        getTokenKey c0 s0 a0 →
      tx.chain = c0 ∧ tx.token_symbol = s0 ∧ tx.token_address = a0)
    (s s' : CalcState)
    (hrel : StRel (getTokenKey c0 s0 a0) (defaultTokenPnL s0 a0 c0) s s') :
    StRel (getTokenKey c0 s0 a0) (defaultTokenPnL s0 a0 c0)
      (processAll method s l).1 (processAll method s' l).1 := by
  induction l generalizing s s' with
  | nil => exact hrel
  | cons tx rest ih =>
      simp only [processAll]
      exact ih (fun t ht h => hl t (List.mem_cons_of_mem tx ht) h) _ _
        (StRel_step method c0 s0 a0 s s' hrel tx
          (hl tx (List.mem_cons_self tx rest)))

end WalletTracker

namespace WalletTracker

/-! ## C10 — finalization results modulo one all-zero entry -/

/-- Finalizing the all-zero default entry only fills in the current price:
every P&L figure stays zero. -/
theorem finalizeTok_default (prices : List (String × Rat)) (c0 s0 a0 : String) :
    (finalizeTok prices (defaultTokenPnL s0 a0 c0)).quantity_held = 0 ∧
    (finalizeTok prices (defaultTokenPnL s0 a0 c0)).average_buy_price_usd = 0 ∧
    (finalizeTok prices (defaultTokenPnL s0 a0 c0)).realized_pnl_usd = 0 ∧
    (finalizeTok prices (defaultTokenPnL s0 a0 c0)).unrealized_pnl_usd = 0 ∧
    (finalizeTok prices (defaultTokenPnL s0 a0 c0)).chain = c0 := by
  simp [finalizeTok, defaultTokenPnL]

theorem tokSum_eq (f : TokenPnL → Rat) (l : List TokenPnL) (a : Rat) :
    l.foldl (fun s t => s + f t) a = a + (l.map f).sum := by
  induction l generalizing a with
  | nil => simp
  | cons hd tl ih => simp [List.foldl_cons, ih, add_assoc]

/-- The summary only depends on four sums over the token list, each
invariant under permutation and under discarding an entry whose holdings
and P&L figures are all zero. -/
theorem calculateSummary_perm_zero (tokens tokens' : List TokenPnL)
    (h : List.Perm tokens' tokens ∨
      ∃ zt, zt.quantity_held = 0 ∧ zt.realized_pnl_usd = 0 ∧
        zt.unrealized_pnl_usd = 0 ∧ List.Perm tokens' (zt :: tokens)) :
    calculateSummary tokens' = calculateSummary tokens := by
  have hsum : ∀ f : TokenPnL → Rat,
      (∀ zt, zt.quantity_held = 0 → zt.realized_pnl_usd = 0 →
        zt.unrealized_pnl_usd = 0 → f zt = 0) →
      (tokens'.map f).sum = (tokens.map f).sum := by
    intro f hf
    rcases h with hperm | ⟨zt, hq, hr, hu, hperm⟩
    · exact (hperm.map f).sum_eq
    · rw [(hperm.map f).sum_eq, List.map_cons, List.sum_cons, hf zt hq hr hu,
        zero_add]
  have h1 := hsum (fun t => t.realized_pnl_usd) (fun zt _ hr _ => hr)
  have h2 := hsum (fun t => t.unrealized_pnl_usd) (fun zt _ _ hu => hu)
  have h3 := hsum (fun t => t.quantity_held * t.current_price_usd)
    (fun zt hq _ _ => by simp only [hq, zero_mul])
  have h4 := hsum (fun t => t.quantity_held * t.average_buy_price_usd)
    (fun zt hq _ _ => by simp only [hq, zero_mul])
  simp only [calculateSummary, tokSum_eq, zero_add, h1, h2, h3, h4]

theorem chainFold_keysNodup (tokens : List TokenPnL)
    (acc : List (String × ChainPnL)) (h : keysNodup acc) :
    keysNodup (tokens.foldl chainStep acc) := by
  induction tokens generalizing acc with
  | nil => exact h
  | cons t rest ih =>
      simp only [List.foldl_cons]
      exact ih _ (keysNodup_alSet _ _ _ h)

/-- Per-chain component sums. -/
def chainSum (f : TokenPnL → Rat) (c : String) (tokens : List TokenPnL) : Rat :=
  ((tokens.filter (fun t => t.chain = c)).map f).sum

theorem chainSum_cons (f : TokenPnL → Rat) (c : String) (t : TokenPnL)
    (rest : List TokenPnL) :
    chainSum f c (t :: rest) =
      (if t.chain = c then f t else 0) + chainSum f c rest := by
  by_cases h : t.chain = c
  · simp [chainSum, List.filter_cons, h]
  · simp [chainSum, List.filter_cons, h]

/-- The by_chain entry freshly created for chain `c` from the tokens feeding it. -/
def chainEntryOf (c : String) (tokens : List TokenPnL) : ChainPnL :=
  ⟨c, chainSum (fun t => t.realized_pnl_usd) c tokens,
    chainSum (fun t => t.unrealized_pnl_usd) c tokens,
    chainSum (fun t => t.total_pnl_usd) c tokens, 0⟩

/-- An existing by_chain entry augmented with the sums contributed by `tokens`. -/
def chainEntryAdd (e : ChainPnL) (c : String) (tokens : List TokenPnL) : ChainPnL :=
  ⟨e.chain, e.realized_pnl_usd + chainSum (fun t => t.realized_pnl_usd) c tokens,
    e.unrealized_pnl_usd + chainSum (fun t => t.unrealized_pnl_usd) c tokens,
    e.total_pnl_usd + chainSum (fun t => t.total_pnl_usd) c tokens,
    e.pnl_percentage⟩

/-- Characterization of the `aggregateByChain` accumulation loop: the entry
stored for a chain is the accumulator entry (or a fresh one) plus the filtered
component sums. -/
theorem alGet_chainFold (tokens : List TokenPnL)
    (acc : List (String × ChainPnL)) (c : String) :
    alGet (tokens.foldl chainStep acc) c =
      match alGet acc c with
      | some e => some (chainEntryAdd e c tokens)
      | none =>
          if c ∈ tokens.map (fun t => t.chain) then some (chainEntryOf c tokens)
          else none := by
  induction tokens generalizing acc with
  | nil =>
      cases hacc : alGet acc c
      · simp [hacc]
      · simp [hacc, chainEntryAdd, chainSum]
  | cons t rest ih =>
      simp only [List.foldl_cons]
      rw [ih (chainStep acc t)]
      by_cases hc : t.chain = c
      · cases hacc : alGet acc c
        · have hget : alGet (chainStep acc t) c =
              some ⟨t.chain, 0 + t.realized_pnl_usd, 0 + t.unrealized_pnl_usd,
                0 + t.total_pnl_usd, 0⟩ := by
            simp only [chainStep]
            rw [hc, alGet_alSet_self, hacc]
            rfl
          rw [hget]
          have hmem : c ∈ (t :: rest).map (fun t => t.chain) := by simp [hc]
          rw [if_pos hmem]
          simp [chainEntryAdd, chainEntryOf, chainSum_cons, hc]
        · rename_i e
          have hget : alGet (chainStep acc t) c =
              some ⟨e.chain, e.realized_pnl_usd + t.realized_pnl_usd,
                e.unrealized_pnl_usd + t.unrealized_pnl_usd,
                e.total_pnl_usd + t.total_pnl_usd, e.pnl_percentage⟩ := by
            simp only [chainStep]
            rw [hc, alGet_alSet_self, hacc]
            rfl
          rw [hget]
          simp [chainEntryAdd, chainSum_cons, hc, add_assoc]
      · have hget : alGet (chainStep acc t) c = alGet acc c := by
          simp only [chainStep]
          exact alGet_alSet_ne acc t.chain c _ hc
        rw [hget]
        have hsum : ∀ f : TokenPnL → Rat,
            chainSum f c (t :: rest) = chainSum f c rest := by
          intro f
          rw [chainSum_cons, if_neg hc, zero_add]
        cases hacc : alGet acc c
        · have hne : ¬ c = t.chain := fun h => hc h.symm
          have hmem : (c ∈ (t :: rest).map (fun t => t.chain)) ↔
              (c ∈ rest.map (fun t => t.chain)) := by
            simp [hne]
          by_cases hm : c ∈ rest.map (fun t => t.chain)
          · rw [if_pos hm, if_pos (hmem.mpr hm)]
            simp [chainEntryOf, hsum]
          · rw [if_neg hm, if_neg (fun hx => hm (hmem.mp hx))]
        · simp [chainEntryAdd, hsum]

end WalletTracker


namespace WalletTracker

/-! ## C10 — projections of `calculate` and invariance lemmas -/

theorem calculate_summary_eq (method : String) (txs : List Transaction)
    (prices : List (String × Rat)) :
    (calculate method txs prices).summary =
      calculateSummary ((calculate method txs prices).by_token) := rfl

theorem calculate_by_chain_eq (method : String) (txs : List Transaction)
    (prices : List (String × Rat)) :
    (calculate method txs prices).by_chain =
      aggregateByChain ((calculate method txs prices).by_token) := rfl

theorem calculate_by_token_eq (method : String) (txs : List Transaction)
    (prices : List (String × Rat)) :
    (calculate method txs prices).by_token =
      ((processAll method initState
        (txs.insertionSort (fun a b => a.timestamp ≤ b.timestamp))).1.tokenPnL).map
        (fun e => finalizeTok prices e.2) := by
  simp only [calculate, calculateUnrealizedPnL, List.map_map]
  rfl

theorem finalizeTok_default_figures (prices : List (String × Rat))
    (c0 s0 a0 : String) :
    (finalizeTok prices (defaultTokenPnL s0 a0 c0)).quantity_held = 0 ∧
    (finalizeTok prices (defaultTokenPnL s0 a0 c0)).realized_pnl_usd = 0 ∧
    (finalizeTok prices (defaultTokenPnL s0 a0 c0)).unrealized_pnl_usd = 0 ∧
    (finalizeTok prices (defaultTokenPnL s0 a0 c0)).total_pnl_usd = 0 := by
  simp [finalizeTok, defaultTokenPnL]

theorem chainSum_perm_zero (f : TokenPnL → Rat) (c : String)
    (tokens tokens' : List TokenPnL)
    (h : List.Perm tokens' tokens ∨
      ∃ zt, f zt = 0 ∧ List.Perm tokens' (zt :: tokens)) :
    chainSum f c tokens' = chainSum f c tokens := by
  rcases h with hperm | ⟨zt, hz, hperm⟩
  · simp only [chainSum]
    exact ((hperm.filter _).map f).sum_eq
  · simp only [chainSum]
    rw [((hperm.filter _).map f).sum_eq, List.filter_cons]
    by_cases hc : zt.chain = c
    · simp [hc, hz]
    · simp [hc]

theorem alGet_chainFold_nil (tokens : List TokenPnL) (c : String) :
    alGet (tokens.foldl chainStep []) c =
      if c ∈ tokens.map (fun t => t.chain) then some (chainEntryOf c tokens)
      else none := by
  rw [alGet_chainFold tokens [] c]
  rfl

/-- Every by_chain entry of a run is reproduced by a run whose token list is
a permutation with at most one extra all-zero-figure entry. -/
theorem mem_aggregateByChain_of_perm_zero (tokens tokens' : List TokenPnL)
    (h : List.Perm tokens' tokens ∨
      ∃ zt, zt.realized_pnl_usd = 0 ∧ zt.unrealized_pnl_usd = 0 ∧
        zt.total_pnl_usd = 0 ∧ List.Perm tokens' (zt :: tokens)) :
    ∀ ce ∈ aggregateByChain tokens, ce ∈ aggregateByChain tokens' := by
  have hr : ∀ c, chainSum (fun t => t.realized_pnl_usd) c tokens' =
      chainSum (fun t => t.realized_pnl_usd) c tokens := by
    intro c
    apply chainSum_perm_zero
    rcases h with hperm | ⟨zt, h1, _, _, hperm⟩
    · exact Or.inl hperm
    · exact Or.inr ⟨zt, h1, hperm⟩
  have hu : ∀ c, chainSum (fun t => t.unrealized_pnl_usd) c tokens' =
      chainSum (fun t => t.unrealized_pnl_usd) c tokens := by
    intro c
    apply chainSum_perm_zero
    rcases h with hperm | ⟨zt, _, h2, _, hperm⟩
    · exact Or.inl hperm
    · exact Or.inr ⟨zt, h2, hperm⟩
  have htt : ∀ c, chainSum (fun t => t.total_pnl_usd) c tokens' =
      chainSum (fun t => t.total_pnl_usd) c tokens := by
    intro c
    apply chainSum_perm_zero
    rcases h with hperm | ⟨zt, _, _, h3, hperm⟩
    · exact Or.inl hperm
    · exact Or.inr ⟨zt, h3, hperm⟩
  have hentry : ∀ c, chainEntryOf c tokens' = chainEntryOf c tokens := by
    intro c
    simp only [chainEntryOf, hr c, hu c, htt c]
  have hmm : ∀ c, c ∈ tokens.map (fun t => t.chain) →
      c ∈ tokens'.map (fun t => t.chain) := by
    intro c hc
    rcases h with hperm | ⟨zt, _, _, _, hperm⟩
    · exact (hperm.map _).mem_iff.mpr hc
    · exact (hperm.map _).mem_iff.mpr (List.mem_cons_of_mem _ hc)
  intro ce hce
  simp only [aggregateByChain, List.mem_map] at hce ⊢
  obtain ⟨⟨c, e⟩, hmemfold, hpct⟩ := hce
  have hget := (mem_iff_alGet _ c e
    (chainFold_keysNodup tokens [] keysNodup_nil)).mp hmemfold
  rw [alGet_chainFold_nil] at hget
  by_cases hcmem : c ∈ tokens.map (fun t => t.chain)
  · rw [if_pos hcmem] at hget
    injection hget with he
    refine ⟨(c, chainEntryOf c tokens'), ?_, ?_⟩
    · apply (mem_iff_alGet _ c _
        (chainFold_keysNodup tokens' [] keysNodup_nil)).mpr
      rw [alGet_chainFold_nil, if_pos (hmm c hcmem)]
    · show chainPct (chainEntryOf c tokens') = ce
      rw [hentry c, he]
      exact hpct
  · rw [if_neg hcmem] at hget
    cases hget

end WalletTracker

namespace WalletTracker

/-! ## C10 — counterexample, amended statement, witness -/

/-- A plain acquisition of one `ETH` at unit price 10. -/
def c10Buy : Transaction :=
  { tx_hash := "0xr", chain := "ethereum", timestamp := 1, type := TxType.buy,
    token_symbol := "ETH", token_address := "0x0", quantity := 1,
    price_usd := 10, total_value_usd := 10 }

/-- A zero-quantity acquisition of the same token, with the symbol written
in lower case (`eth`): the storage key is the same, because keys are
lowercased. -/
def c10Zero : Transaction :=
  { c10Buy with
    tx_hash := "0xz", timestamp := 0, token_symbol := "eth",
    quantity := 0, price_usd := 0, total_value_usd := 0 }

/-- The zero-quantity acquisition with identifiers matching `c10Buy`. -/
def c10ZeroC : Transaction :=
  { c10Zero with token_symbol := "ETH" }

def c10Prices : List (String × Rat) := [("ETH", 20)]

/-- C10 (counterexample): a zero-quantity acquisition is NOT always a
no-op.  Lots and token entries are stored under a lowercased key, but the
symbol kept on a token entry — and later used for the case-sensitive price
lookup — is taken verbatim from the transaction that first touches the
key.  A zero-quantity buy written as `eth`, inserted in front of an
otherwise identical run holding `ETH`, flips the looked-up price from 20
to 0 and changes the unrealized P&L from 10 to −10. -/
theorem c10_zero_quantity_acquisition_changes_figures :
    c10Zero.quantity = 0 ∧ c10Zero.type = TxType.buy ∧
    (calculate "fifo" [c10Buy] c10Prices).summary.total_unrealized_pnl_usd = 10 ∧
    (calculate "fifo" [c10Zero, c10Buy]
        c10Prices).summary.total_unrealized_pnl_usd = -10 := by
  have hk1 : getTokenKey "ethereum" "eth" "0x0" = "ethereum:eth:0x0" := by decide
  have hk2 : getTokenKey "ethereum" "ETH" "0x0" = "ethereum:eth:0x0" := by decide
  have hne : "ETH" ≠ "eth" := by decide
  refine ⟨rfl, rfl, ?_, ?_⟩ <;>
    norm_num [calculate, processAll, processTransaction, addPosition,
      removePosition, consume, lookupAmt, updateTokenPnL, posOf, alGet, alSet,
      hk1, hk2, hne, sumQty, sumValue, initState, defaultTokenPnL,
      calculateSummary, calculateUnrealizedPnL, finalizeTok, c10Buy, c10Zero,
      c10Prices, List.insertionSort, List.orderedInsert, min_def]

/-- C10 (amended): inserting one zero-quantity acquisition anywhere into
the input is a no-op on the P&L figures, provided (i) the inserted
transaction writes its token identifiers (chain, symbol, address) exactly
as every other transaction on its key does — otherwise the verbatim
first-touch symbol flips the case-sensitive price lookup — and (ii) under
the `avg` method no disposal of the input bears the inserted key: the
inserted zero-quantity lot makes an otherwise empty ledger non-empty, and
an `avg` disposal against a ledger of total quantity zero hits the
unguarded `0/0` pooled-price division
(`avg_disposal_on_zero_quantity_ledger_diverges`), the one corner where
this rational model and JavaScript arithmetic disagree; disposals on keys
other than the inserted one run on identical ledgers in both runs, so
both runs compute them identically.  Under these provisos the summary is
unchanged, every per-token entry and every per-chain entry of the
original run appears in the new run (the inserted acquisition can
additionally create an all-zero entry for its own key), and no error is
possible, for every cost-basis method string including `avg`. -/
theorem c10_zero_quantity_acquisition_noop (method : String)
    (u v : List Transaction) (t0 : Transaction) (prices : List (String × Rat))
    (ht0type : t0.type = TxType.buy ∨ t0.type = TxType.transfer_in)
    (ht0q : t0.quantity = 0)
    (hids : ∀ tx ∈ u ++ v,
      getTokenKey tx.chain tx.token_symbol tx.token_address =
        getTokenKey t0.chain t0.token_symbol t0.token_address →
      tx.chain = t0.chain ∧ tx.token_symbol = t0.token_symbol ∧
        tx.token_address = t0.token_address)
    ( _havg : method = "avg" → ∀ tx ∈ u ++ v,
      (tx.type = TxType.sell ∨ tx.type = TxType.transfer_out) →
      getTokenKey tx.chain tx.token_symbol tx.token_address ≠
        getTokenKey t0.chain t0.token_symbol t0.token_address) :
    (calculate method (u ++ t0 :: v) prices).summary =
      (calculate method (u ++ v) prices).summary ∧
    (∀ t ∈ (calculate method (u ++ v) prices).by_token,
      t ∈ (calculate method (u ++ t0 :: v) prices).by_token) ∧
    (∀ ce ∈ (calculate method (u ++ v) prices).by_chain,
      ce ∈ (calculate method (u ++ t0 :: v) prices).by_chain) := by
  haveI htot : IsTotal Transaction (fun a b => a.timestamp ≤ b.timestamp) :=
    ⟨fun a b => le_total a.timestamp b.timestamp⟩
  haveI htrans : IsTrans Transaction (fun a b => a.timestamp ≤ b.timestamp) :=
    ⟨fun a b c hab hbc => le_trans hab hbc⟩
  obtain ⟨u', v', hbase, hins⟩ :=
    insertionSort_insert (fun a b : Transaction => a.timestamp ≤ b.timestamp) t0 u v
  have hrel : StRel (getTokenKey t0.chain t0.token_symbol t0.token_address)
      (defaultTokenPnL t0.token_symbol t0.token_address t0.chain)
      (processAll method initState (u' ++ v')).1
      (processAll method initState (u' ++ t0 :: v')).1 := by
    have hreach : Reach (processAll method initState u').1 :=
      Reach_processAll method u' initState Reach_init
    have hl : ∀ tx ∈ v',
        getTokenKey tx.chain tx.token_symbol tx.token_address =
          getTokenKey t0.chain t0.token_symbol t0.token_address →
        tx.chain = t0.chain ∧ tx.token_symbol = t0.token_symbol ∧
          tx.token_address = t0.token_address := by
      intro tx htx hkey
      apply hids
      · have h1 : tx ∈ u' ++ v' := List.mem_append_right u' htx
        rw [← hbase] at h1
        exact (List.perm_insertionSort _ _).mem_iff.mp h1
      · exact hkey
    have h0 := StRel_processAll method t0.chain t0.token_symbol t0.token_address
      v' hl (processAll method initState u').1
      (processTransaction method (processAll method initState u').1 t0).1
      (StRel_t0 method t0.chain t0.token_symbol t0.token_address t0 ht0type
        ht0q rfl rfl rfl (processAll method initState u').1 hreach)
    have h1 : (processAll method initState (u' ++ t0 :: v')).1 =
        (processAll method (processTransaction method
          (processAll method initState u').1 t0).1 v').1 := by
      rw [processAll_append_state]
      rfl
    have h2 : (processAll method initState (u' ++ v')).1 =
        (processAll method (processAll method initState u').1 v').1 :=
      processAll_append_state method u' v' initState
    rw [h1, h2]
    exact h0
  obtain ⟨-, -, htok, -, -⟩ := hrel
  have hmain :
      List.Perm
        ((processAll method initState (u' ++ t0 :: v')).1.tokenPnL.map
          (fun e => finalizeTok prices e.2))
        ((processAll method initState (u' ++ v')).1.tokenPnL.map
          (fun e => finalizeTok prices e.2)) ∨
      List.Perm
        ((processAll method initState (u' ++ t0 :: v')).1.tokenPnL.map
          (fun e => finalizeTok prices e.2))
        (finalizeTok prices
            (defaultTokenPnL t0.token_symbol t0.token_address t0.chain) ::
          (processAll method initState (u' ++ v')).1.tokenPnL.map
            (fun e => finalizeTok prices e.2)) := by
    rcases htok with hperm | ⟨-, hperm⟩
    · exact Or.inl (hperm.map _)
    · exact Or.inr (hperm.map _)
  have hTokB := calculate_by_token_eq method (u ++ v) prices
  have hTokP := calculate_by_token_eq method (u ++ t0 :: v) prices
  rw [hbase] at hTokB
  rw [hins] at hTokP
  refine ⟨?_, ?_, ?_⟩
  · rw [calculate_summary_eq, calculate_summary_eq, hTokP, hTokB]
    obtain ⟨hq0, hr0, hu0, -⟩ := finalizeTok_default_figures prices
      t0.chain t0.token_symbol t0.token_address
    rcases hmain with hp | hp
    · exact calculateSummary_perm_zero _ _ (Or.inl hp)
    · exact calculateSummary_perm_zero _ _
        (Or.inr ⟨finalizeTok prices
          (defaultTokenPnL t0.token_symbol t0.token_address t0.chain),
          hq0, hr0, hu0, hp⟩)
  · intro t ht
    rw [hTokB] at ht
    rw [hTokP]
    rcases hmain with hp | hp
    · exact hp.mem_iff.mpr ht
    · exact hp.mem_iff.mpr (List.mem_cons_of_mem _ ht)
  · rw [calculate_by_chain_eq, calculate_by_chain_eq, hTokP, hTokB]
    obtain ⟨-, hr0, hu0, ht0t⟩ := finalizeTok_default_figures prices
      t0.chain t0.token_symbol t0.token_address
    rcases hmain with hp | hp
    · exact mem_aggregateByChain_of_perm_zero _ _ (Or.inl hp)
    · exact mem_aggregateByChain_of_perm_zero _ _
        (Or.inr ⟨finalizeTok prices
          (defaultTokenPnL t0.token_symbol t0.token_address t0.chain),
          hr0, hu0, ht0t, hp⟩)

/-- C10 witness: the amended no-op theorem applied at the concrete run that
inserts the identifier-consistent zero buy in front of one `ETH` buy. -/
theorem c10_zero_quantity_acquisition_noop_witness :
    ((c10ZeroC.type = TxType.buy ∨ c10ZeroC.type = TxType.transfer_in) ∧
      c10ZeroC.quantity = 0 ∧
      (∀ tx ∈ ([] : List Transaction) ++ [c10Buy],
        getTokenKey tx.chain tx.token_symbol tx.token_address =
          getTokenKey c10ZeroC.chain c10ZeroC.token_symbol
            c10ZeroC.token_address →
        tx.chain = c10ZeroC.chain ∧ tx.token_symbol = c10ZeroC.token_symbol ∧
          tx.token_address = c10ZeroC.token_address) ∧
      (("fifo" : String) = "avg" → ∀ tx ∈ ([] : List Transaction) ++ [c10Buy],
        (tx.type = TxType.sell ∨ tx.type = TxType.transfer_out) →
        getTokenKey tx.chain tx.token_symbol tx.token_address ≠
          getTokenKey c10ZeroC.chain c10ZeroC.token_symbol
            c10ZeroC.token_address)) ∧
    ((calculate "fifo" ([] ++ c10ZeroC :: [c10Buy]) c10Prices).summary =
        (calculate "fifo" ([] ++ [c10Buy]) c10Prices).summary ∧
      (∀ t ∈ (calculate "fifo" ([] ++ [c10Buy]) c10Prices).by_token,
        t ∈ (calculate "fifo" ([] ++ c10ZeroC :: [c10Buy]) c10Prices).by_token) ∧
      (∀ ce ∈ (calculate "fifo" ([] ++ [c10Buy]) c10Prices).by_chain,
        ce ∈ (calculate "fifo"
          ([] ++ c10ZeroC :: [c10Buy]) c10Prices).by_chain)) :=
  ⟨⟨Or.inl rfl, rfl, by
      intro tx htx _
      simp only [List.nil_append, List.mem_singleton] at htx
      subst htx
      exact ⟨rfl, rfl, rfl⟩,
      fun h => absurd h (by decide)⟩,
    c10_zero_quantity_acquisition_noop "fifo" [] [c10Buy] c10ZeroC c10Prices
      (Or.inl rfl) rfl (by
        intro tx htx _
        simp only [List.nil_append, List.mem_singleton] at htx
        subst htx
        exact ⟨rfl, rfl, rfl⟩)
      (fun h => absurd h (by decide))⟩

end WalletTracker
